import Mathlib

/-!
Verification of the staged (overlay) filesystem of the codeformer repository.

The development shallowly embeds `StagedFileSystem` (staged-file-system.ts)
together with the parts of `RealFileSystem` (real-file-system.ts), of the
Node `path` module (posix flavour) and of the `fast-glob` library that the
class uses.  Paths are plain `String`s, JS `Map`s are ordered association
lists, JS `Set`s are ordered duplicate-free lists, `Buffer`s are `String`s
(`writeFileSync`/`readFileSync` convert through UTF-8, which is the identity
at this level), and thrown `FsError`s are an `Except` error type.  Methods
that mutate the object are state-passing functions that also return the
(possibly partially) updated state, matching the fact that a thrown JS
exception does not roll back earlier field mutations.
-/

namespace Codeformer

/-! ## Characters and strings

All path functions work on `String.data`, the underlying character list,
so that they can be reasoned about by list induction. -/

/-- JS `String.prototype.startsWith`: `strStartsWith s p` is true iff `p` is
a literal prefix of `s` (no separator awareness). -/
def strStartsWith (s p : String) : Bool :=
  p.data.isPrefixOf s.data

theorem string_data_append (a b : String) : (a ++ b).data = a.data ++ b.data := by
  cases a; cases b; rfl

theorem string_eq_of_data (a b : String) (h : a.data = b.data) : a = b := by
  cases a; cases b; exact congrArg String.mk h

/-! ## Segment-level path model

`splitOnSlashCh` splits a character list at `'/'` (the posix separator,
`path.sep`), exactly like `String.prototype.split('/')`. -/

def splitOnSlashCh : List Char → List (List Char)
  | [] => [[]]
  | c :: rest =>
    match splitOnSlashCh rest with
    | [] => [[c]]
    | s :: ss => if c = '/' then [] :: s :: ss else (c :: s) :: ss

/-- Rejoin what `splitOnSlashCh` produced, with `'/'` between the parts. -/
def joinWithSlashCh : List (List Char) → List Char
  | [] => []
  | [s] => s
  | s :: s' :: ss => s ++ '/' :: joinWithSlashCh (s' :: ss)

/-- Split a string into its `'/'`-separated parts. -/
def splitPath (p : String) : List String :=
  (splitOnSlashCh p.data).map (fun l => ⟨l⟩)

/-- Join path segments with `'/'`. -/
def joinSegs : List String → String
  | [] => ""
  | [a] => a
  | a :: b :: rest => a ++ "/" ++ joinSegs (b :: rest)

/-- The absolute path whose segments are `segs` (so `absOf [] = "/"`). -/
def absOf (segs : List String) : String :=
  "/" ++ joinSegs segs

/-- A usable path segment: nonempty, not a dot segment, and without `'/'`. -/
def ValidSeg (s : String) : Prop :=
  s ≠ "" ∧ s ≠ "." ∧ s ≠ ".." ∧ ∀ c ∈ s.data, c ≠ '/'

instance : DecidablePred ValidSeg := fun s => by
  unfold ValidSeg; infer_instance

def ValidSegs (l : List String) : Prop := ∀ s ∈ l, ValidSeg s

instance : DecidablePred ValidSegs := fun l => by
  unfold ValidSegs; infer_instance

/-- One step of Node's `normalizeString` for an absolute path
(`allowAboveRoot = false`): empty and `"."` segments vanish, `".."` pops. -/
def collapseStep (acc : List String) (seg : String) : List String :=
  if seg = "" ∨ seg = "." then acc
  else if seg = ".." then acc.dropLast
  else acc ++ [seg]

/-- Node's segment normalization for absolute paths. -/
def collapseAbs (l : List String) : List String :=
  l.foldl collapseStep []

/-- One step of `normalizeString` with `allowAboveRoot = true` (relative
paths): leading `".."` segments are kept. -/
def collapseRelStep (acc : List String) (seg : String) : List String :=
  if seg = "" ∨ seg = "." then acc
  else if seg = ".." then
    match acc.getLast? with
    | some s => if s = ".." then acc ++ [".."] else acc.dropLast
    | none => [".."]
  else acc ++ [seg]

/-- `path.normalize` for an absolute input. -/
def normAbs (p : String) : String :=
  absOf (collapseAbs (splitPath p))

/-- `path.normalize` for a relative input. -/
def normRel (p : String) : String :=
  let segs := (splitPath p).foldl collapseRelStep []
  if segs = [] then "." else joinSegs segs

/-- `path.normalize` (posix); trailing-separator preservation is irrelevant
for the inputs the staged filesystem produces and is not modelled. -/
def normPath (p : String) : String :=
  if strStartsWith p "/" then normAbs p else normRel p

/-- `path.resolve(wd, p)` for an absolute working directory `wd`: an
absolute `p` wins and is normalized; otherwise `wd + "/" + p` is. -/
def pathResolve (wd p : String) : String :=
  if strStartsWith p "/" then normAbs p else normAbs (wd ++ "/" ++ p)

/-- `path.dirname` (posix), following Node's character scan: skip trailing
slashes, cut at the next slash; `"//"` is returned exactly when the input is
root-led and the cut lands at index 1. -/
def pathDirname (p : String) : String :=
  match p.data with
  | [] => "."
  | h :: rest =>
    let rev := rest.reverse.dropWhile (· = '/')
    let rev' := rev.dropWhile (· ≠ '/')
    match rev' with
    | [] => if h = '/' then "/" else "."
    | _ :: remain =>
      if remain = [] ∧ h = '/' then "//" else ⟨h :: remain.reverse⟩

/-- `path.basename` (posix): strip trailing slashes, keep the chars after
the last remaining slash. -/
def pathBasename (p : String) : String :=
  ⟨((p.data.reverse.dropWhile (· = '/')).takeWhile (· ≠ '/')).reverse⟩

/-- `path.join(a, b)` (posix): drop empty parts, join with `'/'`, normalize. -/
def pathJoin (a b : String) : String :=
  if a = "" ∧ b = "" then "."
  else if a = "" then normPath b
  else if b = "" then normPath a
  else normPath (a ++ "/" ++ b)

/-- Length of the longest common segment run, used by `path.relative`. -/
def commonLen : List String → List String → Nat
  | a :: as, b :: bs => if a = b then commonLen as bs + 1 else 0
  | _, _ => 0

/-- `path.relative(f, t)` (posix) for absolute `f` and `t`, which is what
every call site passes: resolve both to segments, drop the common run, then
climb with `".."` and descend into the remainder. -/
def pathRelative (f t : String) : String :=
  let fs := collapseAbs (splitPath f)
  let ts := collapseAbs (splitPath t)
  let c := commonLen fs ts
  joinSegs (List.replicate (fs.length - c) ".." ++ ts.drop c)

instance {ε α : Type} [DecidableEq ε] [DecidableEq α] : DecidableEq (Except ε α) := fun a b =>
  match a, b with
  | .ok x, .ok y =>
    if h : x = y then .isTrue (by rw [h]) else .isFalse (by intro hh; cases hh; exact h rfl)
  | .error x, .error y =>
    if h : x = y then .isTrue (by rw [h]) else .isFalse (by intro hh; cases hh; exact h rfl)
  | .ok _, .error _ => .isFalse (by intro h; cases h)
  | .error _, .ok _ => .isFalse (by intro h; cases h)

/-! ## JS `Map` and `Set` model

A JS `Map` is an insertion-ordered association list with unique keys:
`set` overwrites in place, `delete` removes, iteration follows the order. -/

def mapLookup {V : Type} : List (String × V) → String → Option V
  | [], _ => none
  | (k', v) :: rest, k => if k' = k then some v else mapLookup rest k

def mapContains {V : Type} (m : List (String × V)) (k : String) : Bool :=
  (mapLookup m k).isSome

def mapSet {V : Type} : List (String × V) → String → V → List (String × V)
  | [], k, v => [(k, v)]
  | (k', v') :: rest, k, v =>
    if k' = k then (k, v) :: rest else (k', v') :: mapSet rest k v

def mapDelete {V : Type} : List (String × V) → String → List (String × V)
  | [], _ => []
  | (k', v') :: rest, k =>
    if k' = k then mapDelete rest k else (k', v') :: mapDelete rest k

/-- JS `Set.add`: appended at the end unless already present. -/
def setAdd (s : List String) (x : String) : List String :=
  if x ∈ s then s else s ++ [x]

/-- JS `Set.delete`. -/
def setErase (s : List String) (x : String) : List String :=
  s.filter (fun y => y ≠ x)

/-! ## Error taxonomy (errors.ts) -/

inductive FsErr : Type
  /-- `NotFoundError` -/
  | notFound (path : String)
  /-- `PermissionDeniedError` -/
  | permissionDenied (path : String)
  /-- `IllegalOperationOnDirectoryError` -/
  | illegalOperationOnDirectory (path : String)
  /-- The plain `Error` thrown by `StagedFileSystem.resolvePath`
  ("Cannot resolve path outside of working directory"), the spec's
  `OutOfRoot` kind. -/
  | outOfRoot (path : String)
  /-- An unmapped errno error rethrown by `mapFsError`'s default branch
  (e.g. `ENOTDIR`, `EISDIR`). -/
  | other (code : String) (path : String)
  /-- Fuel exhaustion marker for the `mkdirSync` loop; unreachable for the
  inputs the class can produce (the loop shortens its path every round). -/
  | fuelExhausted
deriving DecidableEq, Repr

/-! ## Real disk model

Real disk content is a finite map from absolute paths to nodes.  The staged
filesystem never writes through to disk, so the disk is a fixed parameter of
every operation. -/

inductive DiskNode : Type
  | file (content : String)
  | dir
deriving DecidableEq, Repr

def Disk : Type := List (String × DiskNode)

def diskLookup (d : Disk) (p : String) : Option DiskNode :=
  mapLookup d p

def diskHas (d : Disk) (p : String) : Bool :=
  (diskLookup d p).isSome

def diskHasDir (d : Disk) (p : String) : Bool :=
  diskLookup d p = some DiskNode.dir

/-- Directory entry (types.ts `DirEntry`). -/
structure DirEntry where
  name : String
  path : String
  isDirectory : Bool
deriving DecidableEq, Repr

/-! ## RealFileSystem (real-file-system.ts)

Only the pieces the staged filesystem calls.  The adapter is constructed by
`StagedFileSystem` with `cwd = workingDir`. -/

/-- `RealFileSystem.resolvePath`: resolve against `cwd`, then reject when the
result does not start (as a string) with `cwd`, throwing
`PermissionDeniedError`. -/
def realResolvePath (cwd p : String) : Except FsErr String :=
  let resolved := pathResolve cwd p
  if strStartsWith resolved cwd then .ok resolved
  else .error (.permissionDenied resolved)

/-- `RealFileSystem.existsSync`: `accessSync` succeeds iff the path is on
disk; `ENOENT` becomes `false`; the `PermissionDeniedError` thrown by
`resolvePath` has no errno code, so `mapFsError` rethrows it. -/
def realExistsSync (d : Disk) (cwd p : String) : Except FsErr Bool := do
  let resolved ← realResolvePath cwd p
  pure (diskHas d resolved)

/-- `RealFileSystem.readBufferSync`: `readFileSync` on the resolved path;
missing maps to `NotFoundError` (with the caller-supplied path, as
`mapFsError(err, filePath)` does), a directory rethrows `EISDIR` raw. -/
def realReadBufferSync (d : Disk) (cwd p : String) : Except FsErr String := do
  let resolved ← realResolvePath cwd p
  match diskLookup d resolved with
  | some (.file c) => pure c
  | some .dir => .error (.other "EISDIR" p)
  | none => .error (.notFound p)

/-- `RealFileSystem.readDirSync`: list the direct children of the resolved
path, each with `path = path.join(resolvedPath, entry.name)`; a missing
directory maps to `NotFoundError`, a file to a raw `ENOTDIR`. -/
def realReadDirSync (d : Disk) (cwd p : String) : Except FsErr (List DirEntry) := do
  let resolved ← realResolvePath cwd p
  match diskLookup d resolved with
  | some .dir =>
    pure <| d.filterMap fun e =>
      if pathDirname e.1 = resolved ∧ e.1 ≠ resolved then
        some { name := pathBasename e.1
               path := pathJoin resolved (pathBasename e.1)
               isDirectory := e.2 = DiskNode.dir }
      else none
  | some (.file _) => .error (.other "ENOTDIR" p)
  | none => .error (.notFound p)

/-- True when no `'/'`-separated component of `rel` starts with a dot;
`fast-glob` runs with its default `dot: false` and skips hidden entries. -/
def noHiddenSegs (rel : List Char) : Bool :=
  (splitOnSlashCh rel).all fun seg => seg.head? ≠ some '.'

/-- `FastGlob.sync('**', { ignore, cwd, stats: true, absolute: true })` as
invoked by `moveSync`.  With the default `onlyFiles: true` it yields the
non-hidden files strictly below `cwd`; each entry carries `name` (the
basename) and `path` (the absolute path).  A `cwd` that is not an existing
directory yields no entries.  `StagedFileSystem` is modelled as constructed
with the default `ignoredGlobs = []`, so the `ignore` list never filters. -/
def fastGlobSync (d : Disk) (cwd : String) : List (String × String) :=
  if diskHasDir d cwd then
    d.filterMap fun e =>
      match e.2 with
      | .file _ =>
        if strStartsWith e.1 (cwd ++ "/")
            ∧ noHiddenSegs (e.1.data.drop (cwd.data.length + 1)) then
          some (pathBasename e.1, e.1)
        else none
      | .dir => none
  else []

/-! ## StagedFileSystem state (staged-file-system.ts) -/

/-- A value of the staged map: file bytes or the directory marker symbol
`STAGED_FILE_SYSTEM_DIRECTORY_SYMBOL`. -/
inductive StagedEntry : Type
  | file (content : String)
  | dir
deriving DecidableEq, Repr

/-- One element of the `moveOperations` queue (`StagedFsMoveOperation`);
the `type: 'move'` tag is constant and omitted. -/
structure MoveOp where
  srcPath : String
  destPath : String
deriving DecidableEq, Repr

/-- The mutable fields of a `StagedFileSystem` instance (constructed with
the default `ignoredGlobs = []`; `realFs` shares `workingDir` as its cwd). -/
structure StagedFs where
  moveOperations : List MoveOp
  stagedPathToContentMap : List (String × StagedEntry)
  movedPathToOriginalPathMap : List (String × String)
  deletedOriginalPaths : List String
  workingDir : String
deriving DecidableEq, Repr

/-- A fresh instance: `new StagedFileSystem({ cwd })`. -/
def initStagedFs (cwd : String) : StagedFs :=
  { moveOperations := []
    stagedPathToContentMap := []
    movedPathToOriginalPathMap := []
    deletedOriginalPaths := []
    workingDir := cwd }

/-- `StagedFileSystem.resolvePath`: resolve against the working directory
and reject (plain string `startsWith`) anything not starting with it. -/
def resolvePath (s : StagedFs) (filePath : String) : Except FsErr String :=
  let resolved := pathResolve s.workingDir filePath
  if strStartsWith resolved s.workingDir then .ok resolved
  else .error (.outOfRoot filePath)

/-- `StagedFileSystem.resolveOriginalPath`: follow the rename binding of
the resolved path, if any. -/
def resolveOriginalPath (s : StagedFs) (stagedPath : String) : Except FsErr String := do
  let resolved ← resolvePath s stagedPath
  pure ((mapLookup s.movedPathToOriginalPathMap resolved).getD resolved)

/-- `StagedFileSystem.isPathDeleted` (no resolution: the raw path's binding,
then membership in `deletedOriginalPaths`). -/
def isPathDeleted (s : StagedFs) (stagedPath : String) : Bool :=
  s.deletedOriginalPaths.contains
    ((mapLookup s.movedPathToOriginalPathMap stagedPath).getD stagedPath)

/-- `StagedFileSystem.existsStaged`. -/
def existsStaged (s : StagedFs) (resolved originalPath : String) : Bool :=
  if s.deletedOriginalPaths.contains originalPath then false
  else mapContains s.stagedPathToContentMap resolved

/-- `StagedFileSystem.existsSync` (and `exists`, its promise wrapper). -/
def existsSync (d : Disk) (s : StagedFs) (p : String) : Except FsErr Bool := do
  let originalPath ← resolveOriginalPath s p
  let resolved ← resolvePath s p
  if s.deletedOriginalPaths.contains originalPath then pure false
  else if mapContains s.stagedPathToContentMap resolved then pure true
  else realExistsSync d s.workingDir originalPath

/-- `StagedFileSystem.readBufferStaged`. -/
def readBufferStaged (s : StagedFs) (resolved : String) : Except FsErr (Option String) :=
  match mapLookup s.stagedPathToContentMap resolved with
  | some .dir => .error (.illegalOperationOnDirectory resolved)
  | some (.file c) => .ok (some c)
  | none => .ok none

/-- `StagedFileSystem.readBufferSync` (a `Buffer`, even empty, is truthy, so
any staged content short-circuits the real read). -/
def readBufferSync (d : Disk) (s : StagedFs) (filePath : String) : Except FsErr String := do
  let resolved ← resolvePath s filePath
  match ← readBufferStaged s resolved with
  | some c => pure c
  | none =>
    let realPath ← resolveOriginalPath s resolved
    realReadBufferSync d s.workingDir realPath

/-- `StagedFileSystem.readFileSync` (UTF-8 decode is the identity here). -/
def readFileSync (d : Disk) (s : StagedFs) (filePath : String) : Except FsErr String :=
  readBufferSync d s filePath

/-- The loop body of `StagedFileSystem.mkdirSync`: walk from the resolved
path toward the working directory, inserting directory markers until an
existing path (or the working directory) is met.  The JS `while` loop is
given `|dirname| + 1` rounds of fuel; since every round passes to
`path.dirname`, which strictly shortens any absolute path other than `"/"`
(where the loop either stops or throws), the fuel can never run out. -/
def mkdirLoop (d : Disk) : Nat → StagedFs → String → Except FsErr Unit × StagedFs
  | 0, s, _ => (.error .fuelExhausted, s)
  | fuel + 1, s, dirname =>
    if dirname = s.workingDir then (.ok (), s)
    else
      match existsSync d s dirname with
      | .error e => (.error e, s)
      | .ok true => (.ok (), s)
      | .ok false =>
        let staged' := mapSet s.stagedPathToContentMap dirname StagedEntry.dir
        let s' := { s with stagedPathToContentMap := staged' }
        mkdirLoop d fuel s' (pathDirname dirname)

/-- `StagedFileSystem.mkdirSync` (and `mkdir`). -/
def mkdirSync (d : Disk) (s : StagedFs) (dirPath : String) : Except FsErr Unit × StagedFs :=
  match resolvePath s dirPath with
  | .error e => (.error e, s)
  | .ok resolved => mkdirLoop d (resolved.length + 1) s resolved

/-- `StagedFileSystem.rmSync` (and `rm`): drop any staged entry at the
resolved path and tombstone the original path. -/
def rmSync (s : StagedFs) (targetPath : String) : Except FsErr Unit × StagedFs :=
  match resolveOriginalPath s targetPath with
  | .error e => (.error e, s)
  | .ok originalPath =>
    match resolvePath s targetPath with
    | .error e => (.error e, s)
    | .ok resolved =>
      (.ok (), { s with
        stagedPathToContentMap := mapDelete s.stagedPathToContentMap resolved
        deletedOriginalPaths := setAdd s.deletedOriginalPaths originalPath })

/-- `StagedFileSystem.writeBufferSync` (and `writeBuffer`): clear the
tombstone of the original path, ensure parent directories, stage the bytes.
A failure inside `mkdirSync` aborts before the content is staged but keeps
the earlier mutations, as in JS. -/
def writeBufferSync (d : Disk) (s : StagedFs) (filePath content : String) :
    Except FsErr Unit × StagedFs :=
  match resolveOriginalPath s filePath with
  | .error e => (.error e, s)
  | .ok originalPath =>
    let s1 := { s with deletedOriginalPaths := setErase s.deletedOriginalPaths originalPath }
    match mkdirSync d s1 (pathDirname filePath) with
    | (.error e, s2) => (.error e, s2)
    | (.ok (), s2) =>
      match resolvePath s2 filePath with
      | .error e => (.error e, s2)
      | .ok resolved =>
        let staged' := mapSet s2.stagedPathToContentMap resolved (StagedEntry.file content)
        (.ok (), { s2 with stagedPathToContentMap := staged' })

/-- `StagedFileSystem.writeFileSync` (and `writeFile`): UTF-8 encode, then
`writeBufferSync`. -/
def writeFileSync (d : Disk) (s : StagedFs) (filePath content : String) :
    Except FsErr Unit × StagedFs :=
  writeBufferSync d s filePath content

/-- The inner `renameMapKeys` of `updateNestedPathMappings`: over a snapshot
of the entries, every key equal to `oldBasePath` or having it as a
separator-bounded prefix is deleted and re-inserted at
`path.join(newBasePath, path.relative(oldBasePath, key))`. -/
def renameMapKeys {V : Type} (oldBasePath newBasePath : String)
    (m : List (String × V)) : List (String × V) :=
  m.foldl
    (fun acc kv =>
      if strStartsWith kv.1 (oldBasePath ++ "/") || kv.1 = oldBasePath then
        mapSet (mapDelete acc kv.1)
          (pathJoin newBasePath (pathRelative oldBasePath kv.1)) kv.2
      else acc)
    m

/-- `StagedFileSystem.updateNestedPathMappings`, applied by
`executeMoveOperation` to the rename-binding map and the staged map. -/
def updateNestedPathMappings (oldBasePath newBasePath : String) (s : StagedFs) : StagedFs :=
  { s with
    movedPathToOriginalPathMap := renameMapKeys oldBasePath newBasePath s.movedPathToOriginalPathMap
    stagedPathToContentMap := renameMapKeys oldBasePath newBasePath s.stagedPathToContentMap }

/-- `StagedFileSystem.moveSync` (and `move`): existence checks, rename
bindings for the glob of the original source path, an unconditional
`moveOperations.push`, then the nested-path rewrite. -/
def moveSync (d : Disk) (s : StagedFs) (srcPath destPath : String) :
    Except FsErr Unit × StagedFs :=
  match resolvePath s srcPath with
  | .error e => (.error e, s)
  | .ok resolvedSrcPath =>
    match resolvePath s destPath with
    | .error e => (.error e, s)
    | .ok resolvedDestPath =>
      match existsSync d s resolvedSrcPath with
      | .error e => (.error e, s)
      | .ok false => (.error (.notFound resolvedSrcPath), s)
      | .ok true =>
        match existsSync d s (pathDirname resolvedDestPath) with
        | .error e => (.error e, s)
        | .ok false => (.error (.notFound (pathDirname resolvedDestPath)), s)
        | .ok true =>
          match resolveOriginalPath s resolvedSrcPath with
          | .error e => (.error e, s)
          | .ok originalSrcPath =>
            let entries := fastGlobSync d originalSrcPath
            let bindings' :=
              entries.foldl
                (fun acc e => mapSet acc (pathJoin resolvedDestPath e.1) e.2)
                s.movedPathToOriginalPathMap
            let s1 := { s with movedPathToOriginalPathMap := bindings' }
            let ops' :=
              s1.moveOperations ++ [{ srcPath := resolvedSrcPath, destPath := resolvedDestPath }]
            let s2 := { s1 with moveOperations := ops' }
            (.ok (), updateNestedPathMappings resolvedSrcPath resolvedDestPath s2)

/-- `StagedFileSystem.listFilesInStagedDir`. -/
def listFilesInStagedDir (s : StagedFs) (dirPath : String) : List DirEntry :=
  (s.stagedPathToContentMap.filter (fun e => pathDirname e.1 = dirPath)).map
    fun e =>
      { name := pathBasename e.1
        path := e.1
        isDirectory := e.2 = StagedEntry.dir }

/-- `StagedFileSystem.rewriteOriginalPathToMovedPath`: the first binding
whose value is the given original path, in map order. -/
def rewriteOriginalPathToMovedPath (s : StagedFs) (originalPath : String) : String :=
  match s.movedPathToOriginalPathMap.find? (fun e => e.2 = originalPath) with
  | some e => e.1
  | none => originalPath

/-- `StagedFileSystem.mergeDirectoryEntries`. -/
def mergeDirectoryEntries (s : StagedFs) (dirPath : String)
    (realEntries : List DirEntry) : List DirEntry :=
  let stagedEntries := listFilesInStagedDir s dirPath
  (realEntries.filter
      (fun e => ¬ stagedEntries.any (fun se => se.name = e.name) ∧ ¬ isPathDeleted s e.path)).map
    (fun e => { e with path := rewriteOriginalPathToMovedPath s e.path })
  ++ stagedEntries

/-- `StagedFileSystem.readDirSync` (and `readDir`): a `NotFoundError` from
the real listing is swallowed as an empty list, everything else propagates. -/
def readDirSync (d : Disk) (s : StagedFs) (dirPath : String) :
    Except FsErr (List DirEntry) := do
  let ex ← existsSync d s dirPath
  if ¬ ex then .error (.notFound dirPath)
  else do
    let originalPath ← resolveOriginalPath s dirPath
    let realEntries ←
      match realReadDirSync d s.workingDir originalPath with
      | .ok es => pure es
      | .error (.notFound _) => pure []
      | .error e => .error e
    pure (mergeDirectoryEntries s dirPath realEntries)

/-! ## Diff extraction getters

`getMoveOperations` and `getStagedContentMap` return the live internal
array/&`Map` objects (`return this.moveOperations`), while
`getDeletedOriginalPaths` returns a fresh array (`return [...set]`).  A JS
reference into the store is modelled by a handle that is read against the
state current at read time; a fresh copy carries its value. -/

inductive MoveOpsSnap : Type
  /-- The caller holds the store's own `moveOperations` array. -/
  | liveMoveOps
deriving DecidableEq, Repr

inductive StagedMapSnap : Type
  /-- The caller holds the store's own `stagedPathToContentMap`. -/
  | liveStagedMap
deriving DecidableEq, Repr

inductive DeletedSnap : Type
  /-- The caller holds a fresh array spread from the set. -/
  | copied (v : List String)
deriving DecidableEq, Repr

/-- `StagedFileSystem.getMoveOperations`: `return this.moveOperations;`. -/
def getMoveOperations (s : StagedFs) : MoveOpsSnap × StagedFs :=
  (.liveMoveOps, s)

/-- `StagedFileSystem.getStagedContentMap`: `return this.stagedPathToContentMap;`. -/
def getStagedContentMap (s : StagedFs) : StagedMapSnap × StagedFs :=
  (.liveStagedMap, s)

/-- `StagedFileSystem.getDeletedOriginalPaths`: `return [...this.deletedOriginalPaths];`. -/
def getDeletedOriginalPaths (s : StagedFs) : DeletedSnap × StagedFs :=
  (.copied s.deletedOriginalPaths, s)

/-- What the holder of a `getMoveOperations` result observes in state `s`. -/
def readMoveOpsSnap : MoveOpsSnap → StagedFs → List MoveOp
  | .liveMoveOps, s => s.moveOperations

/-- What the holder of a `getStagedContentMap` result observes in state `s`. -/
def readStagedMapSnap : StagedMapSnap → StagedFs → List (String × StagedEntry)
  | .liveStagedMap, s => s.stagedPathToContentMap

/-- What the holder of a `getDeletedOriginalPaths` result observes. -/
def readDeletedSnap : DeletedSnap → StagedFs → List String
  | .copied v, _ => v

/-! ## Lemmas about the character-level split and join -/

theorem splitOnSlashCh_cons (c : Char) (rest : List Char) (s : List Char) (ss : List (List Char))
    (h : splitOnSlashCh rest = s :: ss) :
    splitOnSlashCh (c :: rest) = if c = '/' then [] :: s :: ss else (c :: s) :: ss := by
  simp only [splitOnSlashCh, h]

theorem splitOnSlashCh_ne_nil (l : List Char) : splitOnSlashCh l ≠ [] := by
  induction l with
  | nil => simp [splitOnSlashCh]
  | cons c rest ih =>
    obtain ⟨s, ss, hss⟩ : ∃ s ss, splitOnSlashCh rest = s :: ss := by
      cases h : splitOnSlashCh rest with
      | nil => exact absurd h ih
      | cons s ss => exact ⟨s, ss, rfl⟩
    rw [splitOnSlashCh_cons c rest s ss hss]
    split <;> simp

theorem exists_splitOnSlashCh (l : List Char) :
    ∃ s ss, splitOnSlashCh l = s :: ss := by
  cases h : splitOnSlashCh l with
  | nil => exact absurd h (splitOnSlashCh_ne_nil l)
  | cons s ss => exact ⟨s, ss, rfl⟩

theorem splitOnSlashCh_noslash (l : List Char) (h : ∀ c ∈ l, c ≠ '/') :
    splitOnSlashCh l = [l] := by
  induction l with
  | nil => rfl
  | cons c rest ih =>
    have hc : c ≠ '/' := h c (by simp)
    have hrest : splitOnSlashCh rest = [rest] := ih (fun x hx => h x (by simp [hx]))
    rw [splitOnSlashCh_cons c rest rest [] hrest]
    simp [hc]

theorem splitOnSlashCh_slash_cons (l : List Char) :
    splitOnSlashCh ('/' :: l) = [] :: splitOnSlashCh l := by
  obtain ⟨s, ss, hss⟩ := exists_splitOnSlashCh l
  rw [splitOnSlashCh_cons '/' l s ss hss, hss]
  simp

theorem splitOnSlashCh_append (l₁ l₂ : List Char) (h : ∀ c ∈ l₁, c ≠ '/') :
    splitOnSlashCh (l₁ ++ '/' :: l₂) = l₁ :: splitOnSlashCh l₂ := by
  induction l₁ with
  | nil => simpa using splitOnSlashCh_slash_cons l₂
  | cons c rest ih =>
    have hc : c ≠ '/' := h c (by simp)
    have ihr := ih (fun x hx => h x (by simp [hx]))
    obtain ⟨s, ss, hss⟩ := exists_splitOnSlashCh (rest ++ '/' :: l₂)
    show splitOnSlashCh (c :: (rest ++ '/' :: l₂)) = _
    rw [splitOnSlashCh_cons c _ s ss hss, if_neg hc]
    rw [ihr] at hss
    injection hss with h1 h2
    rw [h1, h2]

theorem joinWithSlashCh_splitOnSlashCh (l : List Char) :
    joinWithSlashCh (splitOnSlashCh l) = l := by
  induction l with
  | nil => rfl
  | cons c rest ih =>
    obtain ⟨s, ss, hss⟩ := exists_splitOnSlashCh rest
    rw [splitOnSlashCh_cons c rest s ss hss]
    rw [hss] at ih
    by_cases hc : c = '/'
    · subst hc
      rw [if_pos rfl]
      show [] ++ '/' :: joinWithSlashCh (s :: ss) = '/' :: rest
      rw [List.nil_append, ih]
    · rw [if_neg hc]
      cases ss with
      | nil => show c :: s = c :: rest; rw [show joinWithSlashCh [s] = s from rfl] at ih; rw [ih]
      | cons s' ss' =>
        show (c :: s) ++ '/' :: joinWithSlashCh (s' :: ss') = c :: rest
        have : s ++ '/' :: joinWithSlashCh (s' :: ss') = rest := ih
        simpa using this

/-! ## Lemmas about segment join and `absOf` -/

theorem data_slash : ("/" : String).data = ['/'] := rfl

theorem data_joinSegs_cons_cons (a b : String) (rest : List String) :
    (joinSegs (a :: b :: rest)).data = a.data ++ '/' :: (joinSegs (b :: rest)).data := by
  show ((a ++ "/") ++ joinSegs (b :: rest)).data = _
  rw [string_data_append, string_data_append, data_slash]
  simp

theorem valid_noslash {a : String} (h : ValidSeg a) : ∀ c ∈ a.data, c ≠ '/' :=
  h.2.2.2

theorem valid_data_ne_nil {a : String} (h : ValidSeg a) : a.data ≠ [] := by
  intro hd
  exact h.1 (string_eq_of_data a "" hd)

theorem joinSegs_data_ne_nil (segs : List String) (h : ValidSegs segs) (hne : segs ≠ []) :
    (joinSegs segs).data ≠ [] := by
  cases segs with
  | nil => exact absurd rfl hne
  | cons a rest =>
    cases rest with
    | nil => exact valid_data_ne_nil (h a (by simp))
    | cons b rest' =>
      rw [data_joinSegs_cons_cons]
      intro hcontra
      exact valid_data_ne_nil (h a (by simp)) (List.append_eq_nil.mp hcontra).1

theorem splitPath_joinSegs (segs : List String) (h : ValidSegs segs) (hne : segs ≠ []) :
    splitOnSlashCh (joinSegs segs).data = segs.map String.data := by
  induction segs with
  | nil => exact absurd rfl hne
  | cons a rest ih =>
    cases rest with
    | nil =>
      show splitOnSlashCh a.data = [a.data]
      exact splitOnSlashCh_noslash a.data (valid_noslash (h a (by simp)))
    | cons b rest' =>
      rw [data_joinSegs_cons_cons,
        splitOnSlashCh_append _ _ (valid_noslash (h a (by simp))),
        ih (fun x hx => h x (by simp [hx])) (by simp)]
      rfl

theorem string_mk_data (s : String) : (⟨s.data⟩ : String) = s := by
  cases s; rfl

theorem splitPath_absOf (segs : List String) (h : ValidSegs segs) (hne : segs ≠ []) :
    splitPath (absOf segs) = "" :: segs := by
  unfold splitPath absOf
  rw [string_data_append, data_slash]
  show (splitOnSlashCh ('/' :: (joinSegs segs).data)).map _ = _
  rw [splitOnSlashCh_slash_cons, splitPath_joinSegs segs h hne]
  show ("" : String) :: (segs.map String.data).map (fun l => (⟨l⟩ : String)) = _
  rw [List.map_map]
  congr 1
  exact (List.map_congr_left (fun s _ => string_mk_data s)).trans (List.map_id segs)

/-! ## Normalization and resolution on canonical absolute paths -/

theorem foldl_collapseStep_valid (segs : List String) (h : ValidSegs segs) :
    ∀ acc, List.foldl collapseStep acc segs = acc ++ segs := by
  induction segs with
  | nil => simp
  | cons a rest ih =>
    intro acc
    have ha := h a (by simp)
    have hstep : collapseStep acc a = acc ++ [a] := by
      unfold collapseStep
      rw [if_neg (by push_neg; exact ⟨ha.1, ha.2.1⟩), if_neg ha.2.2.1]
    show List.foldl collapseStep (collapseStep acc a) rest = _
    rw [hstep, ih (fun x hx => h x (by simp [hx]))]
    simp

theorem collapseAbs_valid (segs : List String) (h : ValidSegs segs) :
    collapseAbs ("" :: segs) = segs := by
  show List.foldl collapseStep (collapseStep [] "") segs = segs
  have h0 : collapseStep [] "" = [] := by unfold collapseStep; simp
  rw [h0, foldl_collapseStep_valid segs h []]
  simp

theorem normAbs_absOf (segs : List String) (h : ValidSegs segs) :
    normAbs (absOf segs) = absOf segs := by
  cases hsegs : segs with
  | nil => decide
  | cons a rest =>
    subst hsegs
    unfold normAbs
    rw [splitPath_absOf _ h (by simp), collapseAbs_valid _ h]

theorem isPrefixOf_append_self (l m : List Char) : l.isPrefixOf (l ++ m) = true := by
  induction l with
  | nil => simp [List.isPrefixOf]
  | cons c rest ih => simpa [List.isPrefixOf] using ih

theorem strStartsWith_absOf_slash (segs : List String) :
    strStartsWith (absOf segs) "/" = true := by
  unfold strStartsWith absOf
  rw [string_data_append, data_slash]
  exact isPrefixOf_append_self ['/'] (joinSegs segs).data

theorem pathResolve_absOf (wd : String) (segs : List String) (h : ValidSegs segs) :
    pathResolve wd (absOf segs) = absOf segs := by
  unfold pathResolve
  rw [strStartsWith_absOf_slash]
  simp [normAbs_absOf segs h]

theorem joinSegs_append (s r : List String) (hs : s ≠ []) (hr : r ≠ []) :
    joinSegs (s ++ r) = joinSegs s ++ "/" ++ joinSegs r := by
  induction s with
  | nil => exact absurd rfl hs
  | cons a rest ih =>
    cases rest with
    | nil =>
      cases r with
      | nil => exact absurd rfl hr
      | cons b rest' => rfl
    | cons b rest' =>
      show joinSegs (a :: (b :: rest' ++ r)) = _
      have h1 : joinSegs (a :: (b :: rest' ++ r)) = a ++ "/" ++ joinSegs (b :: rest' ++ r) := by
        show joinSegs (a :: (b :: (rest' ++ r))) = _
        rfl
      rw [h1, ih (by simp)]
      show _ = (a ++ "/" ++ joinSegs (b :: rest')) ++ "/" ++ joinSegs r
      simp [String.append_assoc]

theorem absOf_append (s r : List String) (hs : s ≠ []) (hr : r ≠ []) :
    absOf (s ++ r) = absOf s ++ "/" ++ joinSegs r := by
  unfold absOf
  rw [joinSegs_append s r hs hr, String.append_assoc, String.append_assoc,
    String.append_assoc]

theorem isPrefixOf_append_both (l m n : List Char) :
    (l ++ m).isPrefixOf (l ++ n) = m.isPrefixOf n := by
  induction l with
  | nil => rfl
  | cons c rest ih => simpa [List.isPrefixOf] using ih

theorem strStartsWith_absOf_append (s r : List String) :
    strStartsWith (absOf (s ++ r)) (absOf s) = true := by
  cases hs : s with
  | nil =>
    have h0 : absOf [] = "/" := rfl
    rw [List.nil_append, h0]
    exact strStartsWith_absOf_slash r
  | cons a rest =>
    cases hr : r with
    | nil =>
      rw [List.append_nil]
      unfold strStartsWith
      simpa using isPrefixOf_append_self (absOf (a :: rest)).data []
    | cons b rest' =>
      rw [← hs, ← hr, absOf_append s r (by rw [hs]; simp) (by rw [hr]; simp)]
      unfold strStartsWith
      rw [string_data_append, string_data_append, data_slash]
      rw [show (absOf s).data ++ ['/'] ++ (joinSegs r).data
          = (absOf s).data ++ ('/' :: (joinSegs r).data) by simp]
      exact isPrefixOf_append_self (absOf s).data ('/' :: (joinSegs r).data)

theorem strStartsWith_absOf_sep (s r : List String) (hs : s ≠ []) (hr : r ≠ []) :
    strStartsWith (absOf (s ++ r)) (absOf s ++ "/") = true := by
  rw [absOf_append s r hs hr]
  unfold strStartsWith
  rw [string_data_append, string_data_append, string_data_append, data_slash]
  rw [show (absOf s).data ++ ['/'] ++ (joinSegs r).data
      = ((absOf s).data ++ ['/']) ++ (joinSegs r).data by simp]
  rw [show ((absOf s).data ++ ['/']).isPrefixOf (((absOf s).data ++ ['/']) ++ (joinSegs r).data)
      = true from isPrefixOf_append_self _ _]

theorem absOf_data_cons (segs : List String) :
    (absOf segs).data = '/' :: (joinSegs segs).data := by
  unfold absOf
  rw [string_data_append, data_slash]
  rfl

theorem absOf_inj {s t : List String} (hs : ValidSegs s) (ht : ValidSegs t)
    (h : absOf s = absOf t) : s = t := by
  cases hsc : s with
  | nil =>
    cases htc : t with
    | nil => rfl
    | cons b rest =>
      subst hsc htc
      exfalso
      have hdata := congrArg String.data h
      rw [absOf_data_cons, absOf_data_cons] at hdata
      have hnil : (joinSegs (b :: rest)).data = [] := by
        have := (List.cons.injEq _ _ _ _ ▸ hdata)
        simpa [joinSegs] using hdata
      exact joinSegs_data_ne_nil (b :: rest) ht (by simp) hnil
  | cons a rest =>
    cases htc : t with
    | nil =>
      subst hsc htc
      exfalso
      have hdata := congrArg String.data h
      rw [absOf_data_cons, absOf_data_cons] at hdata
      have hnil : (joinSegs (a :: rest)).data = [] := by
        simpa [joinSegs] using hdata
      exact joinSegs_data_ne_nil (a :: rest) hs (by simp) hnil
    | cons b rest' =>
      subst hsc htc
      have h1 := splitPath_absOf _ hs (by simp)
      have h2 := splitPath_absOf _ ht (by simp)
      have h3 := h1.symm.trans ((congrArg splitPath h).trans h2)
      injection h3

/-! ## Separator-bounded prefix characterization -/

theorem seg_head_unique (a : List Char) :
    ∀ (b u v : List Char), (∀ c ∈ a, c ≠ '/') → (∀ c ∈ b, c ≠ '/') →
      a ++ '/' :: u = b ++ '/' :: v → a = b ∧ u = v := by
  induction a with
  | nil =>
    intro b u v _ hb h
    cases b with
    | nil => simpa using h
    | cons x bs =>
      exfalso
      have hx : x = '/' := by
        have := congrArg (fun l => l.head?) h
        simpa using this.symm
      exact hb x (by simp) hx
  | cons y as ih =>
    intro b u v ha hb h
    cases b with
    | nil =>
      exfalso
      have hy : y = '/' := by
        have := congrArg (fun l => l.head?) h
        simpa using this
      exact ha y (by simp) hy
    | cons x bs =>
      have hyx : y = x := by
        have := congrArg (fun l => l.head?) h
        simpa using this
      have htail : as ++ '/' :: u = bs ++ '/' :: v := by
        have := congrArg List.tail h
        simpa using this
      have := ih bs u v (fun c hc => ha c (by simp [hc])) (fun c hc => hb c (by simp [hc])) htail
      exact ⟨by rw [hyx, this.1], this.2⟩

theorem valid_of_append_right {s r : List String} (h : ValidSegs (s ++ r)) : ValidSegs r :=
  fun x hx => h x (by simp [hx])

theorem isPrefixOf_exists_append (l₁ : List Char) :
    ∀ l₂, l₁.isPrefixOf l₂ = true → ∃ t, l₂ = l₁ ++ t := by
  induction l₁ with
  | nil => intro l₂ _; exact ⟨l₂, rfl⟩
  | cons a as ih =>
    intro l₂ h
    cases l₂ with
    | nil => simp [List.isPrefixOf] at h
    | cons b bs =>
      rw [List.isPrefixOf_cons₂, Bool.and_eq_true] at h
      obtain ⟨t, ht⟩ := ih bs h.2
      exact ⟨t, by rw [ht, beq_iff_eq.mp h.1]; simp⟩

theorem joinSegs_data_ext (s : List String) :
    ∀ (k : List String) (rest : List Char), ValidSegs s → s ≠ [] → ValidSegs k →
      (joinSegs k).data = (joinSegs s).data ++ '/' :: rest →
      ∃ r, k = s ++ r ∧ r ≠ [] ∧ (joinSegs r).data = rest := by
  induction s with
  | nil => intro _ _ _ hne; exact absurd rfl hne
  | cons a s' ih =>
    intro k rest hs _ hk h
    cases k with
    | nil =>
      exfalso
      have : ([] : List Char) = (joinSegs (a :: s')).data ++ '/' :: rest := h
      cases hempty : (joinSegs (a :: s')).data <;> simp [hempty] at this
    | cons b k' =>
      cases s' with
      | nil =>
        show ∃ r, b :: k' = [a] ++ r ∧ _
        cases k' with
        | nil =>
          exfalso
          have hb : b.data = a.data ++ '/' :: rest := h
          have : ('/' : Char) ∈ b.data := by rw [hb]; simp
          exact valid_noslash (hk b (by simp)) '/' this rfl
        | cons c k'' =>
          have hjoin : b.data ++ '/' :: (joinSegs (c :: k'')).data
              = a.data ++ '/' :: rest := by
            rw [← data_joinSegs_cons_cons]; exact h
          have huniq := seg_head_unique b.data a.data _ _
            (valid_noslash (hk b (by simp))) (valid_noslash (hs a (by simp))) hjoin
          refine ⟨c :: k'', ?_, by simp, huniq.2⟩
          have hba : b = a := string_eq_of_data b a huniq.1
          rw [hba]
          rfl
      | cons a2 s'' =>
        have hgoal : (joinSegs (b :: k')).data
            = a.data ++ '/' :: ((joinSegs (a2 :: s'')).data ++ '/' :: rest) := by
          rw [h, data_joinSegs_cons_cons]
          simp
        cases k' with
        | nil =>
          exfalso
          have hb : b.data = a.data ++ '/' :: ((joinSegs (a2 :: s'')).data ++ '/' :: rest) := hgoal
          have : ('/' : Char) ∈ b.data := by rw [hb]; simp
          exact valid_noslash (hk b (by simp)) '/' this rfl
        | cons c k'' =>
          have hjoin : b.data ++ '/' :: (joinSegs (c :: k'')).data
              = a.data ++ '/' :: ((joinSegs (a2 :: s'')).data ++ '/' :: rest) := by
            rw [← data_joinSegs_cons_cons]; exact hgoal
          have huniq := seg_head_unique b.data a.data _ _
            (valid_noslash (hk b (by simp))) (valid_noslash (hs a (by simp))) hjoin
          obtain ⟨r, hr1, hr2, hr3⟩ := ih (c :: k'') rest
            (fun x hx => hs x (List.mem_cons_of_mem a hx)) (by simp)
            (fun x hx => hk x (List.mem_cons_of_mem b hx)) huniq.2
          refine ⟨r, ?_, hr2, hr3⟩
          have hba : b = a := string_eq_of_data b a huniq.1
          rw [hba, hr1]
          rfl

/-- The boolean test of `renameMapKeys`
(`key.startsWith(oldBasePath + path.sep) || key === oldBasePath`), on
canonical absolute paths, holds exactly when the key's segments extend the
base's segments. -/
theorem matchesBase_iff (s k : List String) (hs : ValidSegs s) (hsne : s ≠ [])
    (hk : ValidSegs k) :
    ((strStartsWith (absOf k) (absOf s ++ "/") || absOf k = absOf s) = true)
      ↔ ∃ r, ValidSegs r ∧ k = s ++ r := by
  constructor
  · intro h
    rcases Bool.or_eq_true_iff.mp h with h1 | h2
    · have hpre : (absOf s ++ "/").data.isPrefixOf (absOf k).data = true := h1
      obtain ⟨tail, htail⟩ := isPrefixOf_exists_append _ _ hpre
      rw [string_data_append, data_slash, absOf_data_cons, absOf_data_cons] at htail
      have hjk : (joinSegs k).data = (joinSegs s).data ++ '/' :: tail := by
        have h3 : '/' :: (joinSegs k).data
            = '/' :: ((joinSegs s).data ++ '/' :: tail) := by simpa using htail
        injection h3
      obtain ⟨r, hr1, _, _⟩ := joinSegs_data_ext s k tail hs hsne hk hjk
      exact ⟨r, by rw [hr1] at hk; exact valid_of_append_right hk, hr1⟩
    · have heq : absOf k = absOf s := by simpa using h2
      refine ⟨[], ?_, ?_⟩
      · intro x hx
        exact absurd hx (List.not_mem_nil x)
      · rw [absOf_inj hk hs heq]
        simp
  · rintro ⟨r, hr, rfl⟩
    cases hrc : r with
    | nil =>
      subst hrc
      apply Bool.or_eq_true_iff.mpr
      right
      simp
    | cons b rest =>
      apply Bool.or_eq_true_iff.mpr
      left
      rw [← hrc]
      exact strStartsWith_absOf_sep s r hsne (by rw [hrc]; simp)

/-! ## `pathRelative`, `pathJoin` and the rewritten key -/

theorem commonLen_self_append (s r : List String) : commonLen s (s ++ r) = s.length := by
  induction s with
  | nil => cases r <;> rfl
  | cons a s' ih =>
    show commonLen (a :: s') (a :: (s' ++ r)) = s'.length + 1
    unfold commonLen
    rw [if_pos rfl, ih]

theorem collapseAbs_splitPath_absOf (s : List String) (hs : ValidSegs s) :
    collapseAbs (splitPath (absOf s)) = s := by
  cases hsc : s with
  | nil => decide
  | cons a s' =>
    rw [← hsc, splitPath_absOf s hs (by rw [hsc]; simp), collapseAbs_valid s hs]

theorem valid_append {s r : List String} (hs : ValidSegs s) (hr : ValidSegs r) :
    ValidSegs (s ++ r) := by
  intro x hx
  rcases List.mem_append.mp hx with h | h
  exacts [hs x h, hr x h]

theorem pathRelative_absOf (s r : List String) (hs : ValidSegs s) (hr : ValidSegs r) :
    pathRelative (absOf s) (absOf (s ++ r)) = joinSegs r := by
  simp only [pathRelative]
  rw [collapseAbs_splitPath_absOf s hs,
    collapseAbs_splitPath_absOf (s ++ r) (valid_append hs hr),
    commonLen_self_append s r]
  simp

theorem joinSegs_ne_empty (r : List String) (hr : ValidSegs r) (hne : r ≠ []) :
    joinSegs r ≠ "" := by
  intro h
  exact joinSegs_data_ne_nil r hr hne (by rw [h])

theorem absOf_ne_empty (s : List String) : absOf s ≠ "" := by
  intro h
  have := congrArg String.data h
  rw [absOf_data_cons] at this
  simp at this

theorem normPath_absOf (s : List String) (hs : ValidSegs s) :
    normPath (absOf s) = absOf s := by
  unfold normPath
  rw [strStartsWith_absOf_slash]
  simp [normAbs_absOf s hs]

theorem pathJoin_absOf (d r : List String) (hd : ValidSegs d) (hr : ValidSegs r) :
    pathJoin (absOf d) (joinSegs r) = absOf (d ++ r) := by
  cases hrc : r with
  | nil =>
    show pathJoin (absOf d) "" = _
    unfold pathJoin
    rw [if_neg (by intro hcontra; exact absOf_ne_empty d hcontra.1),
      if_neg (absOf_ne_empty d), if_pos rfl, normPath_absOf d hd]
    simp
  | cons b rest =>
    rw [← hrc]
    have hrne : r ≠ [] := by rw [hrc]; simp
    unfold pathJoin
    rw [if_neg (by intro hcontra; exact absOf_ne_empty d hcontra.1),
      if_neg (absOf_ne_empty d), if_neg (joinSegs_ne_empty r hr hrne)]
    cases hdc : d with
    | nil =>
      have h1 : absOf [] ++ "/" ++ joinSegs r = "/" ++ ("/" ++ joinSegs r) := by
        apply string_eq_of_data
        repeat rw [string_data_append]
        rfl
      rw [h1]
      unfold normPath
      have hdata : ("/" ++ ("/" ++ joinSegs r)).data = '/' :: '/' :: (joinSegs r).data := by
        rw [string_data_append, string_data_append, data_slash]
        rfl
      have hstarts : strStartsWith ("/" ++ ("/" ++ joinSegs r)) "/" = true := by
        unfold strStartsWith
        rw [hdata, data_slash]
        simp [List.isPrefixOf]
      rw [hstarts]
      simp only [if_pos]
      unfold normAbs splitPath
      rw [hdata, splitOnSlashCh_slash_cons, splitOnSlashCh_slash_cons,
        splitPath_joinSegs r hr hrne]
      show absOf (collapseAbs (("" : String) :: ("" : String) ::
        (r.map String.data).map (fun l => (⟨l⟩ : String)))) = _
      have hmk : (r.map String.data).map (fun l => (⟨l⟩ : String)) = r := by
        rw [List.map_map]
        exact (List.map_congr_left (fun x _ => string_mk_data x)).trans (List.map_id r)
      rw [hmk]
      show absOf (List.foldl collapseStep (collapseStep (collapseStep [] "") "") r) = _
      have h0 : collapseStep (collapseStep [] "") "" = [] := by unfold collapseStep; simp
      rw [h0, foldl_collapseStep_valid r hr []]
    | cons a d' =>
      rw [← hdc]
      have hdne : d ≠ [] := by rw [hdc]; simp
      rw [← absOf_append d r hdne hrne]
      exact normPath_absOf (d ++ r) (by
        intro x hx
        rcases List.mem_append.mp hx with h | h
        exacts [hd x h, hr x h])

/-- The key produced by `renameMapKeys` for a matching key `absOf (s ++ r)`:
`path.join(newBase, path.relative(oldBase, key))` lands at `absOf (d ++ r)`. -/
theorem rewrittenKey_eq (s d r : List String) (hs : ValidSegs s) (hd : ValidSegs d)
    (hr : ValidSegs r) :
    pathJoin (absOf d) (pathRelative (absOf s) (absOf (s ++ r))) = absOf (d ++ r) := by
  rw [pathRelative_absOf s r hs hr, pathJoin_absOf d r hd hr]

/-! ## `pathDirname` on canonical absolute paths -/

theorem pathDirname_cons (h : Char) (rest : List Char) :
    pathDirname ⟨h :: rest⟩ =
      match (rest.reverse.dropWhile (· = '/')).dropWhile (· ≠ '/') with
      | [] => if h = '/' then "/" else "."
      | _ :: remain => if remain = [] ∧ h = '/' then "//" else ⟨h :: remain.reverse⟩ := by
  rfl

theorem dropWhile_all_neg {p : Char → Bool} :
    ∀ l : List Char, (∀ x ∈ l, p x = false) → l.dropWhile p = l
  | [], _ => rfl
  | x :: xs, h => by rw [List.dropWhile_cons, h x (by simp)]; simp

theorem dropWhile_all_pos {p : Char → Bool} :
    ∀ l : List Char, (∀ x ∈ l, p x = true) → l.dropWhile p = []
  | [], _ => rfl
  | x :: xs, h => by
    rw [List.dropWhile_cons, h x (by simp)]
    simpa using dropWhile_all_pos xs (fun y hy => h y (by simp [hy]))

theorem dropWhile_append_all_pos {p : Char → Bool} :
    ∀ (l₁ l₂ : List Char), (∀ x ∈ l₁, p x = true) →
      (l₁ ++ l₂).dropWhile p = l₂.dropWhile p
  | [], _, _ => rfl
  | x :: xs, l₂, h => by
    rw [List.cons_append, List.dropWhile_cons, h x (by simp)]
    simpa using dropWhile_append_all_pos xs l₂ (fun y hy => h y (by simp [hy]))

theorem length_dropWhile_le (p : Char → Bool) :
    ∀ l : List Char, (l.dropWhile p).length ≤ l.length
  | [] => Nat.le_refl _
  | x :: xs => by
    rw [List.dropWhile_cons]
    split
    · exact Nat.le_trans (length_dropWhile_le p xs) (by simp)
    · simp

theorem string_length_data (s : String) : s.length = s.data.length := rfl

theorem absOf_mk (segs : List String) : absOf segs = ⟨'/' :: (joinSegs segs).data⟩ :=
  string_eq_of_data _ _ (absOf_data_cons segs)

/-- `path.dirname` strips the last segment of a canonical absolute path. -/
theorem pathDirname_absOf (s : List String) (a : String) (hs : ValidSegs s) (ha : ValidSeg a) :
    pathDirname (absOf (s ++ [a])) = absOf s := by
  cases hsc : s with
  | nil =>
    rw [List.nil_append, absOf_mk [a], pathDirname_cons]
    have hdrop1 : (joinSegs [a]).data.reverse.dropWhile (· = '/') = (joinSegs [a]).data.reverse := by
      apply dropWhile_all_neg
      intro x hx
      have hx' : x ∈ a.data := by simpa using hx
      simpa using valid_noslash ha x hx'
    have hdrop2 : ((joinSegs [a]).data.reverse).dropWhile (· ≠ '/') = [] := by
      apply dropWhile_all_pos
      intro x hx
      have hx' : x ∈ a.data := by simpa using hx
      simpa using valid_noslash ha x hx'
    rw [hdrop1, hdrop2]
    rfl
  | cons b s' =>
    rw [← hsc]
    have hsne : s ≠ [] := by rw [hsc]; simp
    have hdata : (absOf (s ++ [a])).data = '/' :: ((joinSegs s).data ++ '/' :: a.data) := by
      rw [absOf_append s [a] hsne (by simp), string_data_append, string_data_append,
        data_slash, absOf_data_cons]
      show '/' :: (joinSegs s).data ++ ['/'] ++ a.data = _
      simp
    rw [string_eq_of_data (absOf (s ++ [a])) ⟨'/' :: ((joinSegs s).data ++ '/' :: a.data)⟩ hdata,
      pathDirname_cons]
    have hrev : ((joinSegs s).data ++ '/' :: a.data).reverse
        = a.data.reverse ++ '/' :: (joinSegs s).data.reverse := by
      rw [List.reverse_append, List.reverse_cons]
      simp
    rw [hrev]
    have hnoslash : ∀ x ∈ a.data.reverse, (x = '/' : Bool) = false := by
      intro x hx
      simpa using valid_noslash ha x (by simpa using hx)
    have hdrop1 : (a.data.reverse ++ '/' :: (joinSegs s).data.reverse).dropWhile (· = '/')
        = a.data.reverse ++ '/' :: (joinSegs s).data.reverse := by
      cases hac : a.data.reverse with
      | nil =>
        exfalso
        have := valid_data_ne_nil ha
        simp [List.reverse_eq_nil_iff] at hac
        exact this hac
      | cons y ys =>
        rw [List.cons_append, List.dropWhile_cons,
          hnoslash y (by rw [hac]; simp)]
        simp
    have hdrop2 : (a.data.reverse ++ '/' :: (joinSegs s).data.reverse).dropWhile (· ≠ '/')
        = '/' :: (joinSegs s).data.reverse := by
      rw [dropWhile_append_all_pos a.data.reverse _ (by
        intro x hx
        simpa using hnoslash x hx)]
      rw [List.dropWhile_cons]
      simp
    rw [hdrop1, hdrop2]
    have hremain : (joinSegs s).data.reverse ≠ [] := by
      intro hcontra
      exact joinSegs_data_ne_nil s hs hsne (by simpa [List.reverse_eq_nil_iff] using hcontra)
    show (if (joinSegs s).data.reverse = [] ∧ '/' = '/' then "//"
      else ⟨'/' :: (joinSegs s).data.reverse.reverse⟩) = absOf s
    rw [if_neg (by intro hcontra; exact hremain hcontra.1)]
    rw [absOf_mk s]
    congr 1
    simp

/-- Appending a segment strictly lengthens a canonical absolute path. -/
theorem absOf_length_append (s : List String) (a : String) (ha : ValidSeg a) :
    (absOf s).length < (absOf (s ++ [a])).length := by
  rw [string_length_data, string_length_data, absOf_data_cons, absOf_data_cons,
    List.length_cons, List.length_cons]
  have hgoal : (joinSegs s).data.length < (joinSegs (s ++ [a])).data.length := by
    cases hsc : s with
    | nil =>
      show (joinSegs []).data.length < (joinSegs [a]).data.length
      have hne := valid_data_ne_nil ha
      show ([] : List Char).length < a.data.length
      cases hac : a.data with
      | nil => exact absurd hac hne
      | cons y ys => simp
    | cons b s' =>
      rw [← hsc]
      have hsne : s ≠ [] := by rw [hsc]; simp
      rw [joinSegs_append s [a] hsne (by simp), string_data_append, string_data_append,
        data_slash]
      show (joinSegs s).data.length < ((joinSegs s).data ++ ['/'] ++ a.data).length
      rw [List.length_append, List.length_append]
      have : 0 < (['/'] : List Char).length + a.data.length := by simp
      omega
  omega

/-! ## Lemmas about the `Map` and `Set` model -/

theorem mapLookup_set_self {V : Type} (m : List (String × V)) (k : String) (v : V) :
    mapLookup (mapSet m k v) k = some v := by
  induction m with
  | nil => simp [mapSet, mapLookup]
  | cons e rest ih =>
    obtain ⟨k', v'⟩ := e
    show mapLookup (if k' = k then (k, v) :: rest else (k', v') :: mapSet rest k v) k = some v
    split
    · simp [mapLookup]
    · show (if k' = k then some v' else mapLookup (mapSet rest k v) k) = some v
      rw [if_neg (by assumption), ih]

theorem mapLookup_set_ne {V : Type} (m : List (String × V)) (k t : String) (v : V)
    (h : t ≠ k) : mapLookup (mapSet m k v) t = mapLookup m t := by
  induction m with
  | nil =>
    show (if k = t then some v else none) = none
    rw [if_neg (fun hc => h hc.symm)]
  | cons e rest ih =>
    obtain ⟨k', v'⟩ := e
    by_cases hk : k' = k
    · rw [show mapSet ((k', v') :: rest) k v = (k, v) :: rest by simp [mapSet, hk]]
      show (if k = t then some v else mapLookup rest t)
          = if k' = t then some v' else mapLookup rest t
      rw [if_neg (fun hc => h hc.symm), if_neg (by rw [hk]; exact fun hc => h hc.symm)]
    · rw [show mapSet ((k', v') :: rest) k v = (k', v') :: mapSet rest k v by
        simp [mapSet, hk]]
      show (if k' = t then some v' else mapLookup (mapSet rest k v) t)
          = if k' = t then some v' else mapLookup rest t
      rw [ih]

theorem mapLookup_delete_self {V : Type} (m : List (String × V)) (k : String) :
    mapLookup (mapDelete m k) k = none := by
  induction m with
  | nil => rfl
  | cons e rest ih =>
    obtain ⟨k', v'⟩ := e
    show mapLookup (if k' = k then mapDelete rest k else (k', v') :: mapDelete rest k) k = none
    split
    · exact ih
    · show (if k' = k then some v' else mapLookup (mapDelete rest k) k) = none
      rw [if_neg (by assumption), ih]

theorem mapLookup_delete_ne {V : Type} (m : List (String × V)) (k t : String)
    (h : t ≠ k) : mapLookup (mapDelete m k) t = mapLookup m t := by
  induction m with
  | nil => rfl
  | cons e rest ih =>
    obtain ⟨k', v'⟩ := e
    show mapLookup (if k' = k then mapDelete rest k else (k', v') :: mapDelete rest k) t = _
    split
    · show mapLookup (mapDelete rest k) t = if k' = t then some v' else mapLookup rest t
      rw [if_neg (by
        intro hc
        exact h (hc ▸ (by assumption : k' = k))), ih]
    · show (if k' = t then some v' else mapLookup (mapDelete rest k) t)
          = if k' = t then some v' else mapLookup rest t
      rw [ih]

theorem mapLookup_of_mem_nodup {V : Type} (m : List (String × V)) (k : String) (v : V)
    (hmem : (k, v) ∈ m) (hnd : (m.map Prod.fst).Nodup) : mapLookup m k = some v := by
  induction m with
  | nil => cases hmem
  | cons e rest ih =>
    obtain ⟨k', v'⟩ := e
    rcases List.mem_cons.mp hmem with heq | htail
    · obtain ⟨h1, h2⟩ := Prod.mk.injEq .. ▸ heq
      show (if k' = k then some v' else mapLookup rest k) = some v
      rw [if_pos h1.symm, h2]
    · show (if k' = k then some v' else mapLookup rest k) = some v
      rw [if_neg (by
        intro hc
        subst hc
        have : k' ∈ rest.map Prod.fst := List.mem_map.mpr ⟨(k', v), htail, rfl⟩
        exact (List.nodup_cons.mp hnd).1 this)]
      exact ih htail (List.nodup_cons.mp hnd).2

theorem mem_setAdd_self (s : List String) (x : String) : x ∈ setAdd s x := by
  unfold setAdd
  split
  · assumption
  · simp

theorem not_mem_setErase_self (s : List String) (x : String) : x ∉ setErase s x := by
  intro h
  have := List.of_mem_filter h
  simp at this

theorem mem_setErase_of_ne (s : List String) (x y : String) (hy : y ∈ s) (hne : y ≠ x) :
    y ∈ setErase s x :=
  List.mem_filter.mpr ⟨hy, by simpa using hne⟩

/-! ## Behaviour of the `mkdirSync` loop -/

theorem mkdirLoop_fields (d : Disk) :
    ∀ (fuel : Nat) (s : StagedFs) (dirname : String),
      ((mkdirLoop d fuel s dirname).2.moveOperations = s.moveOperations
      ∧ (mkdirLoop d fuel s dirname).2.movedPathToOriginalPathMap = s.movedPathToOriginalPathMap)
      ∧ (mkdirLoop d fuel s dirname).2.deletedOriginalPaths = s.deletedOriginalPaths
      ∧ (mkdirLoop d fuel s dirname).2.workingDir = s.workingDir := by
  intro fuel
  induction fuel with
  | zero => intro s dirname; exact ⟨⟨rfl, rfl⟩, rfl, rfl⟩
  | succ f ih =>
    intro s dirname
    unfold mkdirLoop
    by_cases hwd : dirname = s.workingDir
    · rw [if_pos hwd]
      exact ⟨⟨rfl, rfl⟩, rfl, rfl⟩
    · rw [if_neg hwd]
      cases hex : existsSync d s dirname with
      | error e => exact ⟨⟨rfl, rfl⟩, rfl, rfl⟩
      | ok b =>
        cases b with
        | true => exact ⟨⟨rfl, rfl⟩, rfl, rfl⟩
        | false =>
          exact ih
            { s with stagedPathToContentMap := mapSet s.stagedPathToContentMap dirname StagedEntry.dir }
            (pathDirname dirname)

/-- The head and length of `pathDirname` of a root-led string. -/
theorem pathDirname_head_length (p : String) (hp : p.data.head? = some '/') :
    (pathDirname p).data.head? = some '/' ∧ (pathDirname p).length ≤ p.length := by
  obtain ⟨rest, hdata⟩ : ∃ rest, p.data = '/' :: rest := by
    cases hd : p.data with
    | nil => rw [hd] at hp; cases hp
    | cons c cs =>
      rw [hd] at hp
      exact ⟨cs, by injection hp with h1; rw [h1]⟩
  rw [string_eq_of_data p ⟨'/' :: rest⟩ hdata, pathDirname_cons]
  cases hdw : (rest.reverse.dropWhile (· = '/')).dropWhile (· ≠ '/') with
  | nil =>
    rw [if_pos rfl]
    refine ⟨rfl, ?_⟩
    rw [string_length_data, string_length_data]
    show (['/'] : List Char).length ≤ ('/' :: rest).length
    simp
  | cons x remainAll =>
    show (if remainAll = [] ∧ ('/' : Char) = '/' then "//"
        else (⟨'/' :: remainAll.reverse⟩ : String)).data.head? = some '/'
      ∧ (if remainAll = [] ∧ ('/' : Char) = '/' then "//"
        else (⟨'/' :: remainAll.reverse⟩ : String)).length ≤ (⟨'/' :: rest⟩ : String).length
    have hlen : remainAll.length < rest.length := by
      have h1 : (x :: remainAll).length ≤ (rest.reverse.dropWhile (· = '/')).length :=
        hdw ▸ length_dropWhile_le _ _
      have h2 : (rest.reverse.dropWhile (· = '/')).length ≤ rest.length := by
        have := length_dropWhile_le (· = '/') rest.reverse
        simpa using this
      have h3 : remainAll.length + 1 ≤ rest.length := by
        simpa using Nat.le_trans h1 h2
      omega
    by_cases hcond : remainAll = [] ∧ ('/' : Char) = '/'
    · rw [if_pos hcond]
      refine ⟨rfl, ?_⟩
      rw [string_length_data, string_length_data]
      show ("//".data).length ≤ ('/' :: rest).length
      have h4 : ("//".data).length = 2 := rfl
      have h5 : remainAll.length = 0 := by rw [hcond.1]; rfl
      rw [h4]
      simp only [List.length_cons]
      omega
    · rw [if_neg hcond]
      refine ⟨rfl, ?_⟩
      rw [string_length_data, string_length_data]
      show ('/' :: remainAll.reverse).length ≤ ('/' :: rest).length
      simp only [List.length_cons, List.length_reverse]
      omega

/-- The loop of `mkdirSync` never touches staged entries at paths strictly
longer than the directory it starts from. -/
theorem mkdirLoop_frame (d : Disk) :
    ∀ (fuel : Nat) (s : StagedFs) (dirname : String), dirname.data.head? = some '/' →
      ∀ k, dirname.length < k.length →
        mapLookup (mkdirLoop d fuel s dirname).2.stagedPathToContentMap k
          = mapLookup s.stagedPathToContentMap k := by
  intro fuel
  induction fuel with
  | zero => intro s dirname _ k _; rfl
  | succ f ih =>
    intro s dirname hhead k hk
    unfold mkdirLoop
    by_cases hwd : dirname = s.workingDir
    · rw [if_pos hwd]
    · rw [if_neg hwd]
      cases hex : existsSync d s dirname with
      | error e => rfl
      | ok b =>
        cases b with
        | true => rfl
        | false =>
          obtain ⟨hhead', hle⟩ := pathDirname_head_length dirname hhead
          rw [ih _ (pathDirname dirname) hhead' k (Nat.lt_of_le_of_lt hle hk)]
          exact mapLookup_set_ne _ _ _ _ (by
            intro hc
            rw [hc] at hk
            exact Nat.lt_irrefl _ hk)

/-! ## Resolution and existence on in-root canonical paths -/

/-- Every rename-binding value resolves back under the working directory.
This holds for every state the class actually reaches (bindings are created
from glob results under the root and rewritten to in-root destinations) and
is assumed by the round-trip theorems. -/
def WFBindings (s : StagedFs) : Bool :=
  s.movedPathToOriginalPathMap.all
    fun kv => strStartsWith (pathResolve s.workingDir kv.2) s.workingDir

theorem mapLookup_mem {V : Type} (m : List (String × V)) (k : String) (v : V)
    (h : mapLookup m k = some v) : (k, v) ∈ m := by
  induction m with
  | nil => cases h
  | cons e rest ih =>
    obtain ⟨k', v'⟩ := e
    by_cases hk : k' = k
    · have : (if k' = k then some v' else mapLookup rest k) = some v := h
      rw [if_pos hk] at this
      injection this with hv
      subst hk hv
      simp
    · have : (if k' = k then some v' else mapLookup rest k) = some v := h
      rw [if_neg hk] at this
      exact List.mem_cons_of_mem _ (ih this)

theorem resolvePath_inroot (s : StagedFs) (wdSegs q : List String)
    (hwd : s.workingDir = absOf wdSegs) (hv : ValidSegs (wdSegs ++ q)) :
    resolvePath s (absOf (wdSegs ++ q)) = .ok (absOf (wdSegs ++ q)) := by
  simp only [resolvePath]
  rw [pathResolve_absOf _ _ hv, hwd, strStartsWith_absOf_append]
  simp

theorem existsSync_eq (d : Disk) (s : StagedFs) (p rp : String)
    (h : resolvePath s p = .ok rp) :
    existsSync d s p =
      (if s.deletedOriginalPaths.contains
          ((mapLookup s.movedPathToOriginalPathMap rp).getD rp) then .ok false
      else if mapContains s.stagedPathToContentMap rp then .ok true
      else realExistsSync d s.workingDir
        ((mapLookup s.movedPathToOriginalPathMap rp).getD rp)) := by
  simp only [existsSync, resolveOriginalPath, h, Except.bind, bind, pure, Except.pure]

theorem existsSync_ok (d : Disk) (s : StagedFs) (wdSegs q : List String)
    (hwd : s.workingDir = absOf wdSegs) (hv : ValidSegs (wdSegs ++ q))
    (hwf : WFBindings s = true) :
    ∃ b, existsSync d s (absOf (wdSegs ++ q)) = .ok b := by
  rw [existsSync_eq d s _ _ (resolvePath_inroot s wdSegs q hwd hv)]
  set p := absOf (wdSegs ++ q) with hp
  by_cases h1 : s.deletedOriginalPaths.contains
      ((mapLookup s.movedPathToOriginalPathMap p).getD p)
  · exact ⟨false, by rw [if_pos h1]⟩
  · rw [if_neg h1]
    by_cases h2 : mapContains s.stagedPathToContentMap p
    · exact ⟨true, by rw [if_pos h2]⟩
    · rw [if_neg h2]
      cases hb : mapLookup s.movedPathToOriginalPathMap p with
      | none =>
        refine ⟨diskHas d p, ?_⟩
        show realExistsSync d s.workingDir p = _
        have hres : realResolvePath s.workingDir p = .ok p := by
          simp only [realResolvePath]
          rw [hwd, pathResolve_absOf _ _ hv, strStartsWith_absOf_append]
          simp
        simp [realExistsSync, hres, Except.bind, bind, pure, Except.pure]
      | some v =>
        have hmem := mapLookup_mem _ _ _ hb
        have hall := List.all_eq_true.mp hwf (p, v) hmem
        refine ⟨diskHas d (pathResolve s.workingDir v), ?_⟩
        show realExistsSync d s.workingDir v = _
        have hres : realResolvePath s.workingDir v = .ok (pathResolve s.workingDir v) := by
          simp only [realResolvePath]
          rw [if_pos hall]
        simp [realExistsSync, hres, Except.bind, bind, pure, Except.pure]

/-- In-root directory chains make the `mkdirSync` loop finish cleanly. -/
theorem mkdirLoop_ok (d : Disk) (wdSegs : List String) (hwdv : ValidSegs wdSegs) :
    ∀ q : List String, ValidSegs q →
      ∀ (s : StagedFs) (fuel : Nat), s.workingDir = absOf wdSegs → WFBindings s = true →
        (absOf (wdSegs ++ q)).length + 1 ≤ fuel →
        (mkdirLoop d fuel s (absOf (wdSegs ++ q))).1 = .ok () := by
  intro q
  induction q using List.reverseRecOn with
  | nil =>
    intro _ s fuel hwd _ hfuel
    obtain ⟨f, rfl⟩ : ∃ f, fuel = f + 1 := ⟨fuel - 1, by omega⟩
    unfold mkdirLoop
    rw [if_pos (by rw [hwd, List.append_nil])]
  | append_singleton q' a ih =>
    intro hv s fuel hwd hwf hfuel
    obtain ⟨f, rfl⟩ : ∃ f, fuel = f + 1 := ⟨fuel - 1, by omega⟩
    have hvfull : ValidSegs (wdSegs ++ (q' ++ [a])) := valid_append hwdv hv
    have hne : absOf (wdSegs ++ (q' ++ [a])) ≠ s.workingDir := by
      rw [hwd]
      intro hc
      have := absOf_inj hvfull hwdv hc
      simp at this
    unfold mkdirLoop
    rw [if_neg hne]
    obtain ⟨b, hb⟩ := existsSync_ok d s wdSegs (q' ++ [a]) hwd hvfull hwf
    rw [hb]
    cases b with
    | true => rfl
    | false =>
      have hassoc : wdSegs ++ (q' ++ [a]) = (wdSegs ++ q') ++ [a] := by simp
      have hdirname : pathDirname (absOf (wdSegs ++ (q' ++ [a]))) = absOf (wdSegs ++ q') := by
        rw [hassoc]
        exact pathDirname_absOf (wdSegs ++ q') a
          (valid_append hwdv (fun x hx => hv x (by simp [hx])))
          (hv a (by simp))
      rw [hdirname]
      apply ih (fun x hx => hv x (by simp [hx]))
      · exact hwd
      · exact hwf
      · have hlt : (absOf (wdSegs ++ q')).length < (absOf (wdSegs ++ (q' ++ [a]))).length := by
          rw [hassoc]
          exact absOf_length_append (wdSegs ++ q') a (hv a (by simp))
        omega

/-- Full characterization of `writeBufferSync` on an in-root canonical path
(with well-formed bindings): it succeeds, leaves the working directory,
rename bindings and move queue alone, erases exactly the written path's
original-path tombstone, and stages the content at the resolved path. -/
theorem writeBufferSync_spec (d : Disk) (s : StagedFs) (wdSegs ps : List String) (c : String)
    (hwd : s.workingDir = absOf wdSegs) (hwdv : ValidSegs wdSegs)
    (hps : ValidSegs ps) (hpsne : ps ≠ []) (hwf : WFBindings s = true) :
    (writeBufferSync d s (absOf (wdSegs ++ ps)) c).1 = .ok ()
    ∧ (writeBufferSync d s (absOf (wdSegs ++ ps)) c).2.workingDir = s.workingDir
    ∧ (writeBufferSync d s (absOf (wdSegs ++ ps)) c).2.movedPathToOriginalPathMap
      = s.movedPathToOriginalPathMap
    ∧ (writeBufferSync d s (absOf (wdSegs ++ ps)) c).2.deletedOriginalPaths
      = setErase s.deletedOriginalPaths
          ((mapLookup s.movedPathToOriginalPathMap (absOf (wdSegs ++ ps))).getD
            (absOf (wdSegs ++ ps)))
    ∧ mapLookup (writeBufferSync d s (absOf (wdSegs ++ ps)) c).2.stagedPathToContentMap
        (absOf (wdSegs ++ ps)) = some (.file c) := by
  obtain ⟨qs, a, hsplit⟩ : ∃ qs a, ps = qs ++ [a] :=
    ⟨ps.dropLast, ps.getLast hpsne, (List.dropLast_append_getLast hpsne).symm⟩
  have hqs : ValidSegs qs := by
    rw [hsplit] at hps
    exact fun x hx => hps x (by simp [hx])
  have ha : ValidSeg a := by
    rw [hsplit] at hps
    exact hps a (by simp)
  have hvfull : ValidSegs (wdSegs ++ ps) := valid_append hwdv hps
  have hres : resolvePath s (absOf (wdSegs ++ ps)) = .ok (absOf (wdSegs ++ ps)) :=
    resolvePath_inroot s wdSegs ps hwd hvfull
  have horig : resolveOriginalPath s (absOf (wdSegs ++ ps))
      = .ok ((mapLookup s.movedPathToOriginalPathMap (absOf (wdSegs ++ ps))).getD
          (absOf (wdSegs ++ ps))) := by
    simp [resolveOriginalPath, hres, Except.bind, bind, pure, Except.pure]
  have hdir : pathDirname (absOf (wdSegs ++ ps)) = absOf (wdSegs ++ qs) := by
    rw [hsplit, ← List.append_assoc]
    exact pathDirname_absOf (wdSegs ++ qs) a (valid_append hwdv hqs) ha
  set orig := (mapLookup s.movedPathToOriginalPathMap (absOf (wdSegs ++ ps))).getD
    (absOf (wdSegs ++ ps)) with horigdef
  set s1 := { s with deletedOriginalPaths := setErase s.deletedOriginalPaths orig } with hs1
  have hwd1 : s1.workingDir = absOf wdSegs := hwd
  have hwf1 : WFBindings s1 = true := hwf
  have hres1 : resolvePath s1 (absOf (wdSegs ++ qs)) = .ok (absOf (wdSegs ++ qs)) :=
    resolvePath_inroot s1 wdSegs qs hwd1 (valid_append hwdv hqs)
  have hmkdef : mkdirSync d s1 (absOf (wdSegs ++ qs))
      = mkdirLoop d ((absOf (wdSegs ++ qs)).length + 1) s1 (absOf (wdSegs ++ qs)) := by
    simp only [mkdirSync, hres1]
  have hloopok := mkdirLoop_ok d wdSegs hwdv qs hqs s1
    ((absOf (wdSegs ++ qs)).length + 1) hwd1 hwf1 (Nat.le_refl _)
  have hfields := mkdirLoop_fields d ((absOf (wdSegs ++ qs)).length + 1) s1
    (absOf (wdSegs ++ qs))
  set s2 := (mkdirLoop d ((absOf (wdSegs ++ qs)).length + 1) s1 (absOf (wdSegs ++ qs))).2
    with hs2
  have hwd2 : s2.workingDir = absOf wdSegs := by rw [hfields.2.2, hwd1]
  have hres2 : resolvePath s2 (absOf (wdSegs ++ ps)) = .ok (absOf (wdSegs ++ ps)) :=
    resolvePath_inroot s2 wdSegs ps hwd2 hvfull
  have hmkpair : mkdirSync d s1 (absOf (wdSegs ++ qs)) = (.ok (), s2) := by
    rw [hmkdef]
    exact Prod.ext hloopok rfl
  have hw : writeBufferSync d s (absOf (wdSegs ++ ps)) c
      = (.ok (), { s2 with stagedPathToContentMap := mapSet s2.stagedPathToContentMap (absOf (wdSegs ++ ps)) (.file c) }) := by
    simp only [writeBufferSync, horig, ← horigdef, ← hs1, hdir, hmkpair, hres2]
  rw [hw]
  refine ⟨rfl, ?_, ?_, ?_, ?_⟩
  · show s2.workingDir = s.workingDir
    rw [hfields.2.2]
  · show s2.movedPathToOriginalPathMap = s.movedPathToOriginalPathMap
    rw [hfields.1.2]
  · show s2.deletedOriginalPaths = setErase s.deletedOriginalPaths orig
    rw [hfields.2.1]
  · exact mapLookup_set_self _ _ _

/-! ## Canonical-path recognition (for quantifying over map keys) -/

/-- The segments of a root-led path (everything after the leading `'/'`,
split at separators). -/
def absSegsOf (p : String) : List String :=
  (splitOnSlashCh (p.data.drop 1)).map fun l => (⟨l⟩ : String)

/-- Recognizes exactly the strings of the form `absOf segs` for a nonempty
list of valid segments. -/
def isCanonAbsPath (p : String) : Bool :=
  (p.data.head? = some '/') && !(p.data.drop 1).isEmpty && decide (ValidSegs (absSegsOf p))

theorem data_joinSegs_map_mk :
    ∀ L : List (List Char), L ≠ [] →
      (joinSegs (L.map fun l => (⟨l⟩ : String))).data = joinWithSlashCh L := by
  intro L
  induction L with
  | nil => intro h; exact absurd rfl h
  | cons l L' ih =>
    intro _
    cases L' with
    | nil => rfl
    | cons l' L'' =>
      show (joinSegs ((⟨l⟩ : String) :: (⟨l'⟩ : String) :: (L''.map _))).data = _
      rw [data_joinSegs_cons_cons]
      show l ++ '/' :: (joinSegs ((l' :: L'').map fun x => (⟨x⟩ : String))).data = _
      rw [ih (by simp)]
      rfl

theorem isCanonAbsPath_spec (p : String) (h : isCanonAbsPath p = true) :
    ValidSegs (absSegsOf p) ∧ absSegsOf p ≠ [] ∧ p = absOf (absSegsOf p) := by
  have h1 : p.data.head? = some '/' := by
    have := (Bool.and_eq_true_iff.mp ((Bool.and_eq_true_iff.mp h).1)).1
    simpa using this
  have h3 : ValidSegs (absSegsOf p) := by
    have := (Bool.and_eq_true_iff.mp h).2
    simpa using this
  obtain ⟨rest, hdata⟩ : ∃ rest, p.data = '/' :: rest := by
    cases hd : p.data with
    | nil => rw [hd] at h1; cases h1
    | cons c cs =>
      rw [hd] at h1
      exact ⟨cs, by injection h1 with hc; rw [hc]⟩
  have hsegne : absSegsOf p ≠ [] := by
    unfold absSegsOf
    intro hc
    have := congrArg List.length hc
    rw [List.length_map] at this
    exact splitOnSlashCh_ne_nil _ (List.length_eq_zero.mp this)
  refine ⟨h3, hsegne, ?_⟩
  apply string_eq_of_data
  rw [absOf_data_cons, hdata]
  have hrest : (p.data.drop 1) = rest := by rw [hdata]; rfl
  show '/' :: rest = '/' :: (joinSegs (absSegsOf p)).data
  unfold absSegsOf
  rw [data_joinSegs_map_mk _ (splitOnSlashCh_ne_nil _), hrest,
    joinWithSlashCh_splitOnSlashCh]

theorem absSegsOf_absOf (ks : List String) (hv : ValidSegs ks) (hne : ks ≠ []) :
    absSegsOf (absOf ks) = ks := by
  unfold absSegsOf
  have hdrop : (absOf ks).data.drop 1 = (joinSegs ks).data := by
    rw [absOf_data_cons]
    rfl
  rw [hdrop, splitPath_joinSegs ks hv hne, List.map_map]
  exact (List.map_congr_left (fun s _ => string_mk_data s)).trans (List.map_id ks)

theorem isCanonAbsPath_absOf (ks : List String) (hv : ValidSegs ks) (hne : ks ≠ []) :
    isCanonAbsPath (absOf ks) = true := by
  unfold isCanonAbsPath
  rw [absSegsOf_absOf ks hv hne]
  have h1 : (absOf ks).data.head? = some '/' := by rw [absOf_data_cons]; rfl
  have h2 : (absOf ks).data.drop 1 = (joinSegs ks).data := by
    rw [absOf_data_cons]
    rfl
  rw [h1, h2]
  simp [hv, List.isEmpty_iff, joinSegs_data_ne_nil ks hv hne]

theorem isPrefixOf_exists_append_str (l₁ : List String) :
    ∀ l₂, l₁.isPrefixOf l₂ = true → ∃ t, l₂ = l₁ ++ t := by
  induction l₁ with
  | nil => intro l₂ _; exact ⟨l₂, rfl⟩
  | cons a as ih =>
    intro l₂ h
    cases l₂ with
    | nil => simp [List.isPrefixOf] at h
    | cons b bs =>
      rw [List.isPrefixOf_cons₂, Bool.and_eq_true] at h
      obtain ⟨t, ht⟩ := ih bs h.2
      exact ⟨t, by rw [ht, beq_iff_eq.mp h.1]; simp⟩

theorem isPrefixOf_append_self_str (l m : List String) : l.isPrefixOf (l ++ m) = true := by
  induction l with
  | nil => simp [List.isPrefixOf]
  | cons c rest ih => simpa [List.isPrefixOf] using ih

/-! ## The prefix rewrite of `updateNestedPathMappings` -/

/-- A step of the `renameMapKeys` fold leaves a lookup unchanged as long as
neither the deleted key nor the inserted rewritten key is the target. -/
theorem renameFold_lookup_untouched {V : Type} (ob nb : String) :
    ∀ (l acc : List (String × V)) (t : String),
      (∀ kv ∈ l, (strStartsWith kv.1 (ob ++ "/") || kv.1 = ob) = true →
        kv.1 ≠ t ∧ pathJoin nb (pathRelative ob kv.1) ≠ t) →
      mapLookup (l.foldl (fun acc kv =>
        if strStartsWith kv.1 (ob ++ "/") || kv.1 = ob then
          mapSet (mapDelete acc kv.1) (pathJoin nb (pathRelative ob kv.1)) kv.2
        else acc) acc) t = mapLookup acc t := by
  intro l
  induction l with
  | nil => intro acc t _; rfl
  | cons kv l' ih =>
    intro acc t h
    rw [List.foldl_cons,
      ih _ t (fun kv2 h2 => h kv2 (List.mem_cons_of_mem kv h2))]
    by_cases hm : (strStartsWith kv.1 (ob ++ "/") || kv.1 = ob) = true
    · rw [if_pos hm]
      obtain ⟨h1, h2⟩ := h kv (by simp) hm
      rw [mapLookup_set_ne _ _ _ _ (fun hc => h2 hc.symm),
        mapLookup_delete_ne _ _ _ (fun hc => h1 hc.symm)]
    · rw [if_neg hm]

/-- Full characterization of `renameMapKeys src dest` on a map whose keys
are canonical absolute paths, pairwise distinct, and none at or under the
destination: keys equal to the base or having it as a separator-bounded
prefix move (with their values) to the destination-rebased key and vanish
from their old location, all other entries are untouched. -/
theorem renameMapKeys_spec {V : Type} (sSegs dSegs : List String) (m : List (String × V))
    (hs : ValidSegs sSegs) (hsne : sSegs ≠ []) (hd : ValidSegs dSegs)
    (hnd : (m.map Prod.fst).Nodup)
    (hkeys : ∀ kv ∈ m, isCanonAbsPath kv.1 = true
      ∧ dSegs.isPrefixOf (absSegsOf kv.1) = false) :
    (∀ (ks : List String) (v : V), (absOf ks, v) ∈ m → ValidSegs ks →
        (∀ r, ks ≠ sSegs ++ r) →
        mapLookup (renameMapKeys (absOf sSegs) (absOf dSegs) m) (absOf ks) = some v)
    ∧ (∀ (r : List String) (v : V), ValidSegs r → (absOf (sSegs ++ r), v) ∈ m →
        mapLookup (renameMapKeys (absOf sSegs) (absOf dSegs) m) (absOf (dSegs ++ r)) = some v
        ∧ mapLookup (renameMapKeys (absOf sSegs) (absOf dSegs) m) (absOf (sSegs ++ r))
          = none) := by
  have hentry : ∀ kv ∈ m, ∃ ks2, ValidSegs ks2 ∧ ks2 ≠ [] ∧ kv.1 = absOf ks2
      ∧ ∀ rr, ks2 ≠ dSegs ++ rr := by
    intro kv hkv
    obtain ⟨hcanon, hpref⟩ := hkeys kv hkv
    obtain ⟨hv2, hne2, heq2⟩ := isCanonAbsPath_spec kv.1 hcanon
    refine ⟨absSegsOf kv.1, hv2, hne2, heq2, ?_⟩
    intro rr hrr
    rw [hrr, isPrefixOf_append_self_str] at hpref
    cases hpref
  have hmatch : ∀ kv ∈ m,
      (strStartsWith kv.1 (absOf sSegs ++ "/") || kv.1 = absOf sSegs) = true →
      ∃ r2, ValidSegs r2 ∧ kv.1 = absOf (sSegs ++ r2) := by
    intro kv hkv hm
    obtain ⟨ks2, hv2, _, heq2, _⟩ := hentry kv hkv
    rw [heq2] at hm
    obtain ⟨r2, hr2v, hr2⟩ := (matchesBase_iff sSegs ks2 hs hsne hv2).mp hm
    exact ⟨r2, hr2v, by rw [heq2, hr2]⟩
  have hnotunder : ∀ kv2 ∈ m, ∀ rr, ValidSegs rr → kv2.1 ≠ absOf (dSegs ++ rr) := by
    intro kv2 hkv2 rr hrrv hc
    obtain ⟨ks2, hv2, _, heq2, hnd2⟩ := hentry kv2 hkv2
    rw [heq2] at hc
    exact hnd2 rr (absOf_inj hv2 (valid_append hd hrrv) hc)
  constructor
  · intro ks v hmem hkv hnotext
    obtain ⟨ks2, hv2, hne2, heq2, hnd2⟩ := hentry (absOf ks, v) hmem
    have hks2 : ks = ks2 := absOf_inj hkv hv2 heq2
    have hside : ∀ kv2 ∈ m,
        (strStartsWith kv2.1 (absOf sSegs ++ "/") || kv2.1 = absOf sSegs) = true →
        kv2.1 ≠ absOf ks
        ∧ pathJoin (absOf dSegs) (pathRelative (absOf sSegs) kv2.1) ≠ absOf ks := by
      intro kv2 hkv2 hm2
      obtain ⟨r2, hr2v, heq3⟩ := hmatch kv2 hkv2 hm2
      constructor
      · rw [heq3]
        intro hc
        exact hnotext r2 (absOf_inj (valid_append hs hr2v) hkv hc).symm
      · rw [heq3, rewrittenKey_eq sSegs dSegs r2 hs hd hr2v]
        intro hc
        have h4 := absOf_inj (valid_append hd hr2v) hkv hc
        rw [hks2] at h4
        exact hnd2 r2 h4.symm
    unfold renameMapKeys
    rw [renameFold_lookup_untouched (absOf sSegs) (absOf dSegs) m m (absOf ks) hside]
    exact mapLookup_of_mem_nodup m _ v hmem hnd
  · intro r v hr hmem
    obtain ⟨l₁, l₂, hm12⟩ := List.append_of_mem hmem
    have hknotin₂ : absOf (sSegs ++ r) ∉ l₂.map Prod.fst := by
      have hnd' := hnd
      rw [hm12, List.map_append, List.map_cons] at hnd'
      exact (List.nodup_cons.mp (List.Nodup.of_append_right hnd')).1
    have hl₂m : ∀ kv2 ∈ l₂, kv2 ∈ m := by
      intro kv2 hkv2
      rw [hm12]
      exact List.mem_append_right _ (List.mem_cons_of_mem _ hkv2)
    have hself_ne : absOf (sSegs ++ r) ≠ absOf (dSegs ++ r) :=
      hnotunder (absOf (sSegs ++ r), v) hmem r hr
    have hmatchp : (strStartsWith (absOf (sSegs ++ r)) (absOf sSegs ++ "/")
        || absOf (sSegs ++ r) = absOf sSegs) = true :=
      (matchesBase_iff sSegs (sSegs ++ r) hs hsne (valid_append hs hr)).mpr ⟨r, hr, rfl⟩
    have hside1 : ∀ kv2 ∈ l₂,
        (strStartsWith kv2.1 (absOf sSegs ++ "/") || kv2.1 = absOf sSegs) = true →
        kv2.1 ≠ absOf (dSegs ++ r)
        ∧ pathJoin (absOf dSegs) (pathRelative (absOf sSegs) kv2.1) ≠ absOf (dSegs ++ r) := by
      intro kv2 hkv2 hm2
      obtain ⟨r2, hr2v, heq3⟩ := hmatch kv2 (hl₂m kv2 hkv2) hm2
      constructor
      · exact hnotunder kv2 (hl₂m kv2 hkv2) r hr
      · rw [heq3, rewrittenKey_eq sSegs dSegs r2 hs hd hr2v]
        intro hc
        have h4 := absOf_inj (valid_append hd hr2v) (valid_append hd hr) hc
        have h5 : r2 = r := List.append_cancel_left h4
        apply hknotin₂
        exact List.mem_map.mpr ⟨kv2, hkv2, by rw [heq3, h5]⟩
    have hside2 : ∀ kv2 ∈ l₂,
        (strStartsWith kv2.1 (absOf sSegs ++ "/") || kv2.1 = absOf sSegs) = true →
        kv2.1 ≠ absOf (sSegs ++ r)
        ∧ pathJoin (absOf dSegs) (pathRelative (absOf sSegs) kv2.1) ≠ absOf (sSegs ++ r) := by
      intro kv2 hkv2 hm2
      obtain ⟨r2, hr2v, heq3⟩ := hmatch kv2 (hl₂m kv2 hkv2) hm2
      constructor
      · intro hc
        apply hknotin₂
        exact List.mem_map.mpr ⟨kv2, hkv2, hc⟩
      · rw [heq3, rewrittenKey_eq sSegs dSegs r2 hs hd hr2v]
        intro hc
        exact hnotunder (absOf (sSegs ++ r), v) hmem r2 hr2v hc.symm
    unfold renameMapKeys
    rw [hm12]
    simp only [List.foldl_append, List.foldl_cons]
    rw [if_pos hmatchp, rewrittenKey_eq sSegs dSegs r hs hd hr]
    constructor
    · rw [renameFold_lookup_untouched (absOf sSegs) (absOf dSegs) l₂ _
        (absOf (dSegs ++ r)) hside1]
      exact mapLookup_set_self _ _ _
    · rw [renameFold_lookup_untouched (absOf sSegs) (absOf dSegs) l₂ _
        (absOf (sSegs ++ r)) hside2]
      rw [mapLookup_set_ne _ _ _ _ hself_ne, mapLookup_delete_self]

/-! ## Concrete instances used by the claim theorems -/

/-- A disk holding only the working root `/r`. -/
def diskRootOnly : Disk := [("/r", .dir)]

/-- A state with one staged (overlay-only) file `/r/a.txt`. -/
def stagedOnlyFileState : StagedFs :=
  (writeFileSync diskRootOnly (initStagedFs "/r") "/r/a.txt" "test").2

/-- A disk with a real directory `/r/src` holding a depth-two file. -/
def diskNestedSrc : Disk :=
  [("/r", .dir), ("/r/src", .dir), ("/r/src/sub", .dir), ("/r/src/sub/f.txt", .file "x")]

/-- A disk with a real directory `/r/d` holding a file. -/
def diskRealDirWithFile : Disk := [("/r", .dir), ("/r/d", .dir), ("/r/d/f.txt", .file "x")]

/-- A disk where the sibling directory `/workspace` shares the working root
`/work` as a string prefix. -/
def diskSiblingRoot : Disk :=
  [("/work", .dir), ("/workspace", .dir), ("/workspace/secret.txt", .file "s")]

/-- A disk with a real file at depth two below `/r/d` (C8 scenario). -/
def diskC8 : Disk :=
  [("/r", .dir), ("/r/d", .dir), ("/r/d/sub", .dir), ("/r/d/sub/f.txt", .file "old")]

/-- C8 scenario, step 1: tombstone the real file `/r/d/sub/f.txt`. -/
def c8Step1 : StagedFs := (rmSync (initStagedFs "/r") "/r/d/sub/f.txt").2

/-- C8 scenario, step 2: stage fresh content at `/r/dest/f.txt`. -/
def c8Step2 : StagedFs := (writeFileSync diskC8 c8Step1 "/r/dest/f.txt" "x").2

/-- C8 scenario, step 3: move the real directory `/r/d` onto `/r/dest`. -/
def c8Step3 : Except FsErr Unit × StagedFs := moveSync diskC8 c8Step2 "/r/d" "/r/dest"

/-! ## Claim C1 -/

/-- Claim C1: the claim says a move of an overlay-only path appends zero
entries to the pending move log.  In the code the
`this.moveOperations.push(...)` in `moveSync` is unconditional: moving the
staged-only file `/r/a.txt` (which has no real-disk origin) appends exactly
one `{source, destination}` entry.  The repository's own unit test
("should move staged file but not register as move operation") asserts the
claimed behaviour, so the code contradicts its own test suite. -/
theorem C1_staged_only_move_appends_an_entry :
    stagedOnlyFileState.moveOperations = []
    ∧ (moveSync diskRootOnly stagedOnlyFileState "/r/a.txt" "/r/b.txt").1 = .ok ()
    ∧ (moveSync diskRootOnly stagedOnlyFileState "/r/a.txt" "/r/b.txt").2.moveOperations
      = [{ srcPath := "/r/a.txt", destPath := "/r/b.txt" }] := by
  refine ⟨by decide, by decide, by decide⟩

/-! ## Claim C2 -/

/-- Claim C2: the claim says moving a real directory registers, for every
real descendant at relative path `r`, a rename binding `dest/r ↦ original`,
so that `readFile(dest/r)` afterwards returns the descendant's on-disk
content.  The code keys each binding with `path.join(resolvedDestPath,
entry.name)`, where fast-glob's `entry.name` is the basename: moving
`/r/src` (with real file `sub/f.txt`) to `/r/dest` produces the binding
`/r/dest/f.txt ↦ /r/src/sub/f.txt` instead of `/r/dest/sub/f.txt ↦ ...`, so
reading `/r/dest/sub/f.txt` fails with `NotFound` (and its `exists` is
false), while the depth-two content surfaces at the wrong path
`/r/dest/f.txt`. -/
theorem C2_nested_descendant_binding_uses_basename :
    (moveSync diskNestedSrc (initStagedFs "/r") "/r/src" "/r/dest").1 = .ok ()
    ∧ (moveSync diskNestedSrc (initStagedFs "/r") "/r/src" "/r/dest").2.movedPathToOriginalPathMap
      = [("/r/dest/f.txt", "/r/src/sub/f.txt")]
    ∧ readFileSync diskNestedSrc
        (moveSync diskNestedSrc (initStagedFs "/r") "/r/src" "/r/dest").2 "/r/dest/sub/f.txt"
      = .error (.notFound "/r/dest/sub/f.txt")
    ∧ existsSync diskNestedSrc
        (moveSync diskNestedSrc (initStagedFs "/r") "/r/src" "/r/dest").2 "/r/dest/sub/f.txt"
      = .ok false
    ∧ readFileSync diskNestedSrc
        (moveSync diskNestedSrc (initStagedFs "/r") "/r/src" "/r/dest").2 "/r/dest/f.txt"
      = .ok "x" := by
  refine ⟨by decide, by decide, by decide, by decide, by decide⟩

/-! ## Claim C3 -/

/-- Claim C3: the claim says that after `rm` of a real-backed directory
every real descendant is treated as deleted by the merged view.  The code
tombstones only the exact path: `isPathDeleted`/`existsSync` test exact
membership of the resolved original path in `deletedOriginalPaths`, with no
ancestor check.  After `rm("/r/d")` the directory itself is hidden
(`exists` false, dropped from its parent's `readDir`), but the real
descendant `/r/d/f.txt` still reports `exists = true` and can still be
read. -/
theorem C3_descendant_of_deleted_dir_still_exists :
    existsSync diskRealDirWithFile (rmSync (initStagedFs "/r") "/r/d").2 "/r/d" = .ok false
    ∧ readDirSync diskRealDirWithFile (rmSync (initStagedFs "/r") "/r/d").2 "/r" = .ok []
    ∧ existsSync diskRealDirWithFile (rmSync (initStagedFs "/r") "/r/d").2 "/r/d/f.txt" = .ok true
    ∧ readFileSync diskRealDirWithFile (rmSync (initStagedFs "/r") "/r/d").2 "/r/d/f.txt"
      = .ok "x" := by
  refine ⟨by decide, by decide, by decide, by decide⟩

/-! ## Claim C4 -/

/-- Claim C4: the claim says every path resolving outside WorkingRoot fails
with the OutOfRoot error kind.  Both `resolvePath` implementations test
`resolvedPath.startsWith(workingDir)` with no separator boundary, so with
WorkingRoot `/work` the sibling-directory path `/workspace/secret.txt`
(which does not lie under `/work`) is accepted: `exists` answers normally
and `readFile` returns the out-of-root file's real content instead of
failing.  (A path such as `../../etc/passwd` that escapes the string prefix
is rejected, which is all the check enforces.) -/
theorem C4_sibling_root_path_not_rejected :
    resolvePath (initStagedFs "/work") "/workspace/secret.txt" = .ok "/workspace/secret.txt"
    ∧ existsSync diskSiblingRoot (initStagedFs "/work") "/workspace/secret.txt" = .ok true
    ∧ readFileSync diskSiblingRoot (initStagedFs "/work") "/workspace/secret.txt" = .ok "s"
    ∧ (rmSync (initStagedFs "/work") "/workspace/secret.txt").1 = .ok ()
    ∧ resolvePath (initStagedFs "/work") "../../etc/passwd"
      = .error (.outOfRoot "../../etc/passwd") := by
  refine ⟨by decide, by decide, by decide, by decide, by decide⟩

/-! ## Claim C5 -/

/-- Claim C5: the prefix rewrite applied by `move` (through
`executeMoveOperation`/`updateNestedPathMappings`) to the rename-binding map
and the staged-content map is exactly separator-bounded.  For canonical,
pairwise-distinct keys none of which sits at or under the destination: a key
equal to `src` or extending it past a separator is re-keyed to the
destination-rebased path with its value and removed from its old key, and
every other entry — in particular a sibling such as `/a/dir10` against
`src = /a/dir1`, which shares `src` only as a plain string prefix — keeps
its key and value untouched. -/
theorem C5_prefix_rewrite_separator_bounded (sSegs dSegs : List String) (s : StagedFs)
    (hs : ValidSegs sSegs) (hsne : sSegs ≠ []) (hd : ValidSegs dSegs)
    (hndb : (s.movedPathToOriginalPathMap.map Prod.fst).Nodup)
    (hkb : ∀ kv ∈ s.movedPathToOriginalPathMap, isCanonAbsPath kv.1 = true
      ∧ dSegs.isPrefixOf (absSegsOf kv.1) = false)
    (hnds : (s.stagedPathToContentMap.map Prod.fst).Nodup)
    (hks : ∀ kv ∈ s.stagedPathToContentMap, isCanonAbsPath kv.1 = true
      ∧ dSegs.isPrefixOf (absSegsOf kv.1) = false) :
    (∀ (ks : List String) (v : String), (absOf ks, v) ∈ s.movedPathToOriginalPathMap →
        ValidSegs ks → (∀ r, ks ≠ sSegs ++ r) →
        mapLookup (updateNestedPathMappings (absOf sSegs) (absOf dSegs)
          s).movedPathToOriginalPathMap (absOf ks) = some v)
    ∧ (∀ (r : List String) (v : String), ValidSegs r →
        (absOf (sSegs ++ r), v) ∈ s.movedPathToOriginalPathMap →
        mapLookup (updateNestedPathMappings (absOf sSegs) (absOf dSegs)
          s).movedPathToOriginalPathMap (absOf (dSegs ++ r)) = some v
        ∧ mapLookup (updateNestedPathMappings (absOf sSegs) (absOf dSegs)
          s).movedPathToOriginalPathMap (absOf (sSegs ++ r)) = none)
    ∧ (∀ (ks : List String) (v : StagedEntry), (absOf ks, v) ∈ s.stagedPathToContentMap →
        ValidSegs ks → (∀ r, ks ≠ sSegs ++ r) →
        mapLookup (updateNestedPathMappings (absOf sSegs) (absOf dSegs)
          s).stagedPathToContentMap (absOf ks) = some v)
    ∧ (∀ (r : List String) (v : StagedEntry), ValidSegs r →
        (absOf (sSegs ++ r), v) ∈ s.stagedPathToContentMap →
        mapLookup (updateNestedPathMappings (absOf sSegs) (absOf dSegs)
          s).stagedPathToContentMap (absOf (dSegs ++ r)) = some v
        ∧ mapLookup (updateNestedPathMappings (absOf sSegs) (absOf dSegs)
          s).stagedPathToContentMap (absOf (sSegs ++ r)) = none) := by
  obtain ⟨hA1, hA2⟩ := renameMapKeys_spec sSegs dSegs s.movedPathToOriginalPathMap
    hs hsne hd hndb hkb
  obtain ⟨hB1, hB2⟩ := renameMapKeys_spec sSegs dSegs s.stagedPathToContentMap
    hs hsne hd hnds hks
  exact ⟨hA1, hA2, hB1, hB2⟩

/-- The state used by the C5 witness: a staged directory `/a/dir1` with a
file under it, a staged sibling `/a/dir10`, and one rename binding under
`/a/dir1`. -/
def c5State : StagedFs :=
  { moveOperations := []
    stagedPathToContentMap :=
      [("/a/dir1", .dir), ("/a/dir1/f.txt", .file "x"), ("/a/dir10", .file "sib")]
    movedPathToOriginalPathMap := [("/a/dir1/f.txt", "/old/f.txt")]
    deletedOriginalPaths := []
    workingDir := "/a" }

/-- Witness for C5: moving `/a/dir1` to `/b/new` re-keys the staged file
and the binding and leaves the sibling `/a/dir10` untouched. -/
theorem C5_prefix_rewrite_separator_bounded_witness :
    (ValidSegs ["a", "dir1"] ∧ (["a", "dir1"] : List String) ≠ [] ∧ ValidSegs ["b", "new"]
      ∧ (c5State.movedPathToOriginalPathMap.map Prod.fst).Nodup
      ∧ (∀ kv ∈ c5State.movedPathToOriginalPathMap, isCanonAbsPath kv.1 = true
        ∧ (["b", "new"] : List String).isPrefixOf (absSegsOf kv.1) = false)
      ∧ (c5State.stagedPathToContentMap.map Prod.fst).Nodup
      ∧ (∀ kv ∈ c5State.stagedPathToContentMap, isCanonAbsPath kv.1 = true
        ∧ (["b", "new"] : List String).isPrefixOf (absSegsOf kv.1) = false))
    ∧ (mapLookup (updateNestedPathMappings (absOf ["a", "dir1"]) (absOf ["b", "new"])
          c5State).stagedPathToContentMap (absOf ["a", "dir10"]) = some (.file "sib")
      ∧ mapLookup (updateNestedPathMappings (absOf ["a", "dir1"]) (absOf ["b", "new"])
          c5State).stagedPathToContentMap (absOf (["b", "new"] ++ ["f.txt"]))
        = some (.file "x")
      ∧ mapLookup (updateNestedPathMappings (absOf ["a", "dir1"]) (absOf ["b", "new"])
          c5State).stagedPathToContentMap (absOf (["a", "dir1"] ++ ["f.txt"])) = none
      ∧ mapLookup (updateNestedPathMappings (absOf ["a", "dir1"]) (absOf ["b", "new"])
          c5State).movedPathToOriginalPathMap (absOf (["b", "new"] ++ ["f.txt"]))
        = some "/old/f.txt") :=
  ⟨⟨by decide, by decide, by decide, by decide, by decide, by decide, by decide⟩, by
    obtain ⟨h1, h2, h3, h4⟩ := C5_prefix_rewrite_separator_bounded ["a", "dir1"] ["b", "new"]
      c5State (by decide) (by decide) (by decide) (by decide) (by decide) (by decide)
      (by decide)
    refine ⟨?_, ?_, ?_, ?_⟩
    · exact h3 ["a", "dir10"] (.file "sib") (by decide) (by decide)
        (fun r hc => by
          injection hc with ha hb
          injection hb with hc2 _
          exact absurd hc2 (by decide))
    · exact (h4 ["f.txt"] (.file "x") (by decide) (by decide)).1
    · exact (h4 ["f.txt"] (.file "x") (by decide) (by decide)).2
    · exact (h2 ["f.txt"] "/old/f.txt" (by decide) (by decide)).1⟩

/-! ## Claim C6 -/

/-- Claim C6: for every state with well-formed bindings, every canonical
path strictly under the working root, and every content, `writeFile`
succeeds and a subsequent `readFile` of the same path returns exactly the
written content: the write stages the bytes at the resolved path (after
clearing any tombstone and creating parent directory markers), and the read
finds them in the staged map before consulting the real disk. -/
theorem C6_write_then_read (d : Disk) (s : StagedFs) (wdSegs ps : List String) (c : String)
    (hwd : s.workingDir = absOf wdSegs) (hwdv : ValidSegs wdSegs)
    (hps : ValidSegs ps) (hpsne : ps ≠ []) (hwf : WFBindings s = true) :
    (writeFileSync d s (absOf (wdSegs ++ ps)) c).1 = .ok ()
    ∧ readFileSync d (writeFileSync d s (absOf (wdSegs ++ ps)) c).2 (absOf (wdSegs ++ ps))
      = .ok c := by
  obtain ⟨h1, hwdkeep, _, _, hstag⟩ := writeBufferSync_spec d s wdSegs ps c hwd hwdv hps hpsne hwf
  refine ⟨h1, ?_⟩
  have hwd' : (writeFileSync d s (absOf (wdSegs ++ ps)) c).2.workingDir = absOf wdSegs := by
    show (writeBufferSync d s (absOf (wdSegs ++ ps)) c).2.workingDir = absOf wdSegs
    rw [hwdkeep, hwd]
  have hres' : resolvePath (writeFileSync d s (absOf (wdSegs ++ ps)) c).2
      (absOf (wdSegs ++ ps)) = .ok (absOf (wdSegs ++ ps)) :=
    resolvePath_inroot _ wdSegs ps hwd' (valid_append hwdv hps)
  have hstag' : mapLookup
      (writeFileSync d s (absOf (wdSegs ++ ps)) c).2.stagedPathToContentMap
      (absOf (wdSegs ++ ps)) = some (.file c) := hstag
  simp [readFileSync, readBufferSync, readBufferStaged, hres', hstag',
    Except.bind, bind, pure, Except.pure]

/-! ## Claim C7 -/

/-- Claim C7: for every in-root path `p` (staged-only or real-backed, moved
or not) and any state, `rm(p)` succeeds and a subsequent `exists(p)` is
`false`: `rmSync` tombstones exactly the original path that `existsSync`
checks first, and neither the rename bindings nor the working directory
change in between. -/
theorem C7_rm_then_exists_false (d : Disk) (s : StagedFs) (p rp : String)
    (h : resolvePath s p = .ok rp) :
    (rmSync s p).1 = .ok () ∧ existsSync d (rmSync s p).2 p = .ok false := by
  have horig : resolveOriginalPath s p
      = .ok ((mapLookup s.movedPathToOriginalPathMap rp).getD rp) := by
    simp [resolveOriginalPath, h, Except.bind]
  unfold rmSync
  rw [horig, h]
  set orig := (mapLookup s.movedPathToOriginalPathMap rp).getD rp with horigdef
  refine ⟨rfl, ?_⟩
  have h' : resolvePath { s with
      stagedPathToContentMap := mapDelete s.stagedPathToContentMap rp,
      deletedOriginalPaths := setAdd s.deletedOriginalPaths orig } p = .ok rp := h
  simp only [existsSync, resolveOriginalPath, h', Except.bind, bind]
  have hmem : orig ∈ setAdd s.deletedOriginalPaths orig := by
    unfold setAdd
    split
    · assumption
    · simp
  simp [pure, Except.pure, List.elem_iff, hmem]

/-- Witness for C7 at a real-backed file. -/
theorem C7_rm_then_exists_false_witness :
    resolvePath (initStagedFs "/r") "/r/a.txt" = .ok "/r/a.txt"
    ∧ ((rmSync (initStagedFs "/r") "/r/a.txt").1 = .ok ()
      ∧ existsSync [("/r", .dir), ("/r/a.txt", .file "t")]
          (rmSync (initStagedFs "/r") "/r/a.txt").2 "/r/a.txt" = .ok false) :=
  ⟨by decide,
   C7_rm_then_exists_false [("/r", .dir), ("/r/a.txt", .file "t")]
     (initStagedFs "/r") "/r/a.txt" "/r/a.txt" (by decide)⟩

/-- Witness for C6 at a concrete state, disk, root and content. -/
theorem C6_write_then_read_witness :
    ((initStagedFs "/r").workingDir = absOf ["r"] ∧ ValidSegs ["r"] ∧ ValidSegs ["x.txt"]
      ∧ (["x.txt"] : List String) ≠ [] ∧ WFBindings (initStagedFs "/r") = true)
    ∧ ((writeFileSync diskRootOnly (initStagedFs "/r") (absOf (["r"] ++ ["x.txt"])) "hi").1
        = .ok ()
      ∧ readFileSync diskRootOnly
          (writeFileSync diskRootOnly (initStagedFs "/r") (absOf (["r"] ++ ["x.txt"])) "hi").2
          (absOf (["r"] ++ ["x.txt"])) = .ok "hi") :=
  ⟨⟨by decide, by decide, by decide, by decide, by decide⟩,
   C6_write_then_read diskRootOnly (initStagedFs "/r") ["r"] ["x.txt"] "hi"
     (by decide) (by decide) (by decide) (by decide) (by decide)⟩

/-! ## Claim C8 -/

/-- Claim C8 counterexample: the claimed invariant ("no path is
simultaneously staged with file content and tombstoned via its resolved
original path, under every operation sequence") fails.  Sequence:
`rm("/r/d/sub/f.txt")` (tombstones the real file), `writeFile("/r/dest/f.txt",
"x")`, then `move("/r/d", "/r/dest")`.  The move's glob registers the
basename-keyed binding `/r/dest/f.txt ↦ /r/d/sub/f.txt`, retargeting the
freshly written staged path onto the tombstoned original: afterwards the
staged map holds content at `/r/dest/f.txt` while its resolved original path
sits in `deletedOriginalPaths` (so `exists` even denies the freshly written
file). -/
theorem C8_invariant_violated_by_move_onto_staged :
    c8Step3.1 = .ok ()
    ∧ mapLookup c8Step3.2.stagedPathToContentMap "/r/dest/f.txt" = some (.file "x")
    ∧ resolveOriginalPath c8Step3.2 "/r/dest/f.txt" = .ok "/r/d/sub/f.txt"
    ∧ "/r/d/sub/f.txt" ∈ c8Step3.2.deletedOriginalPaths
    ∧ existsSync diskC8 c8Step3.2 "/r/dest/f.txt" = .ok false := by
  refine ⟨by decide, by decide, by decide, by decide, by decide⟩

/-! ## Claim C9 -/

/-- Claim C9 counterexample: the extracted move-operations "snapshot" is the
store's live array (`return this.moveOperations;`), not an immutable copy —
a move performed after the extraction is visible through the previously
returned reference, so the claim's "later overlay mutations do not alter a
previously extracted snapshot" fails. -/
theorem C9_move_ops_snapshot_is_live :
    readMoveOpsSnap (getMoveOperations stagedOnlyFileState).1
        (moveSync diskRootOnly stagedOnlyFileState "/r/a.txt" "/r/b.txt").2
      ≠ readMoveOpsSnap (getMoveOperations stagedOnlyFileState).1 stagedOnlyFileState := by
  decide

/-- Claim C9 (amended): extracting the diff pieces is a pure read — each
getter leaves the store state unchanged, so every subsequent query result is
unchanged — and the deleted-paths list alone is a fresh copy whose observed
value is fixed at extraction time; the move-operations list and the staged
content map are returned as live references (see the counterexample). -/
theorem C9_getters_are_pure_reads (s t : StagedFs) :
    (getMoveOperations s).2 = s
    ∧ (getStagedContentMap s).2 = s
    ∧ (getDeletedOriginalPaths s).2 = s
    ∧ readDeletedSnap (getDeletedOriginalPaths s).1 t = s.deletedOriginalPaths :=
  ⟨rfl, rfl, rfl, rfl⟩

/-- Claim C8 (amended): the per-operation halves of the invariant hold.
Writing a canonical in-root path stages its content and leaves the written
path's resolved original path outside the tombstone set (the write erases
any matching tombstone first), and removing any resolvable path leaves no
staged entry at it while tombstoning its resolved original path.  The
global every-sequence invariant fails (see the counterexample): a move can
retarget a staged path's original onto a tombstoned real path. -/
theorem C8_write_and_rm_restore_invariant (d : Disk) (s : StagedFs)
    (wdSegs ps : List String) (c : String) (s' : StagedFs) (q rq : String)
    (hwd : s.workingDir = absOf wdSegs) (hwdv : ValidSegs wdSegs)
    (hps : ValidSegs ps) (hpsne : ps ≠ []) (hwf : WFBindings s = true)
    (hq : resolvePath s' q = .ok rq) :
    ((writeBufferSync d s (absOf (wdSegs ++ ps)) c).1 = .ok ()
      ∧ mapLookup (writeBufferSync d s (absOf (wdSegs ++ ps)) c).2.stagedPathToContentMap
          (absOf (wdSegs ++ ps)) = some (.file c)
      ∧ ((mapLookup (writeBufferSync d s (absOf (wdSegs ++ ps)) c).2.movedPathToOriginalPathMap
            (absOf (wdSegs ++ ps))).getD (absOf (wdSegs ++ ps)))
          ∉ (writeBufferSync d s (absOf (wdSegs ++ ps)) c).2.deletedOriginalPaths)
    ∧ ((rmSync s' q).1 = .ok ()
      ∧ mapLookup (rmSync s' q).2.stagedPathToContentMap rq = none
      ∧ ((mapLookup s'.movedPathToOriginalPathMap rq).getD rq)
          ∈ (rmSync s' q).2.deletedOriginalPaths) := by
  constructor
  · obtain ⟨h1, _, hbind, hdel, hstag⟩ :=
      writeBufferSync_spec d s wdSegs ps c hwd hwdv hps hpsne hwf
    refine ⟨h1, hstag, ?_⟩
    rw [hbind, hdel]
    exact not_mem_setErase_self _ _
  · have horig : resolveOriginalPath s' q
        = .ok ((mapLookup s'.movedPathToOriginalPathMap rq).getD rq) := by
      simp [resolveOriginalPath, hq, Except.bind, bind, pure, Except.pure]
    have hrm : rmSync s' q
        = (.ok (), { s' with stagedPathToContentMap := mapDelete s'.stagedPathToContentMap rq, deletedOriginalPaths := setAdd s'.deletedOriginalPaths ((mapLookup s'.movedPathToOriginalPathMap rq).getD rq) }) := by
      simp only [rmSync, horig, hq]
    rw [hrm]
    exact ⟨rfl, mapLookup_delete_self _ _, mem_setAdd_self _ _⟩

/-- Witness for the amended C8 at a concrete state (a real file `/r/a.txt`
is first written over, and `/r/b.txt` is removed). -/
theorem C8_write_and_rm_restore_invariant_witness :
    ((initStagedFs "/r").workingDir = absOf ["r"] ∧ ValidSegs ["r"] ∧ ValidSegs ["a.txt"]
      ∧ (["a.txt"] : List String) ≠ [] ∧ WFBindings (initStagedFs "/r") = true
      ∧ resolvePath (initStagedFs "/r") "/r/b.txt" = .ok "/r/b.txt")
    ∧ (((writeBufferSync diskRootOnly (initStagedFs "/r") (absOf (["r"] ++ ["a.txt"])) "w").1
          = .ok ()
        ∧ mapLookup (writeBufferSync diskRootOnly (initStagedFs "/r")
            (absOf (["r"] ++ ["a.txt"])) "w").2.stagedPathToContentMap
            (absOf (["r"] ++ ["a.txt"])) = some (.file "w")
        ∧ ((mapLookup (writeBufferSync diskRootOnly (initStagedFs "/r")
              (absOf (["r"] ++ ["a.txt"])) "w").2.movedPathToOriginalPathMap
              (absOf (["r"] ++ ["a.txt"]))).getD (absOf (["r"] ++ ["a.txt"])))
            ∉ (writeBufferSync diskRootOnly (initStagedFs "/r")
                (absOf (["r"] ++ ["a.txt"])) "w").2.deletedOriginalPaths)
      ∧ ((rmSync (initStagedFs "/r") "/r/b.txt").1 = .ok ()
        ∧ mapLookup (rmSync (initStagedFs "/r") "/r/b.txt").2.stagedPathToContentMap "/r/b.txt"
            = none
        ∧ ((mapLookup (initStagedFs "/r").movedPathToOriginalPathMap "/r/b.txt").getD "/r/b.txt")
            ∈ (rmSync (initStagedFs "/r") "/r/b.txt").2.deletedOriginalPaths)) :=
  ⟨⟨by decide, by decide, by decide, by decide, by decide, by decide⟩,
   C8_write_and_rm_restore_invariant diskRootOnly (initStagedFs "/r") ["r"] ["a.txt"] "w"
     (initStagedFs "/r") "/r/b.txt" "/r/b.txt"
     (by decide) (by decide) (by decide) (by decide) (by decide) (by decide)⟩

/-! ## Claim C10 -/

/-- Claim C10: for a real-backed, binding-free canonical path strictly under
the root, `rm(p)` followed by `mkdir(p)` leaves `exists(p)` false: the
mkdir loop sees `exists(p) = false` (the tombstone wins) and stages a
directory marker at `p`, but nothing in `mkdirSync` touches
`deletedOriginalPaths`, and `existsSync` checks the tombstone before the
staged map. -/
theorem C10_rm_then_mkdir_keeps_exists_false (d : Disk) (s : StagedFs)
    (wdSegs ps : List String)
    (hwd : s.workingDir = absOf wdSegs) (hwdv : ValidSegs wdSegs)
    (hps : ValidSegs ps) (hpsne : ps ≠ [])
    (hnobind : mapLookup s.movedPathToOriginalPathMap (absOf (wdSegs ++ ps)) = none)
    (hreal : diskHas d (absOf (wdSegs ++ ps)) = true) :
    (rmSync s (absOf (wdSegs ++ ps))).1 = .ok ()
    ∧ mapLookup (mkdirSync d (rmSync s (absOf (wdSegs ++ ps))).2
        (absOf (wdSegs ++ ps))).2.stagedPathToContentMap (absOf (wdSegs ++ ps))
      = some .dir
    ∧ absOf (wdSegs ++ ps) ∈ (mkdirSync d (rmSync s (absOf (wdSegs ++ ps))).2
        (absOf (wdSegs ++ ps))).2.deletedOriginalPaths
    ∧ existsSync d (mkdirSync d (rmSync s (absOf (wdSegs ++ ps))).2
        (absOf (wdSegs ++ ps))).2 (absOf (wdSegs ++ ps)) = .ok false := by
  have hv : ValidSegs (wdSegs ++ ps) := valid_append hwdv hps
  have hres : resolvePath s (absOf (wdSegs ++ ps)) = .ok (absOf (wdSegs ++ ps)) :=
    resolvePath_inroot s wdSegs ps hwd hv
  have horig : resolveOriginalPath s (absOf (wdSegs ++ ps)) = .ok (absOf (wdSegs ++ ps)) := by
    simp [resolveOriginalPath, hres, hnobind, Except.bind, bind, pure, Except.pure]
  have hrm : rmSync s (absOf (wdSegs ++ ps))
      = (.ok (), { s with stagedPathToContentMap := mapDelete s.stagedPathToContentMap (absOf (wdSegs ++ ps)), deletedOriginalPaths := setAdd s.deletedOriginalPaths (absOf (wdSegs ++ ps)) }) := by
    simp only [rmSync, horig, hres]
  set s1 := { s with stagedPathToContentMap := mapDelete s.stagedPathToContentMap (absOf (wdSegs ++ ps)), deletedOriginalPaths := setAdd s.deletedOriginalPaths (absOf (wdSegs ++ ps)) } with hs1
  have hrm2 : (rmSync s (absOf (wdSegs ++ ps))).2 = s1 := by rw [hrm]
  have hwd1 : s1.workingDir = absOf wdSegs := hwd
  have hres1 : resolvePath s1 (absOf (wdSegs ++ ps)) = .ok (absOf (wdSegs ++ ps)) :=
    resolvePath_inroot s1 wdSegs ps hwd1 hv
  have hmkdef : mkdirSync d s1 (absOf (wdSegs ++ ps))
      = mkdirLoop d ((absOf (wdSegs ++ ps)).length + 1) s1 (absOf (wdSegs ++ ps)) := by
    simp only [mkdirSync, hres1]
  have hPne : absOf (wdSegs ++ ps) ≠ s1.workingDir := by
    rw [hwd1]
    intro hc
    have h2 := absOf_inj hv hwdv hc
    have h3 : ps = [] := by simpa using h2
    exact hpsne h3
  have hcontains : s1.deletedOriginalPaths.contains (absOf (wdSegs ++ ps)) = true := by
    show (setAdd s.deletedOriginalPaths (absOf (wdSegs ++ ps))).contains
      (absOf (wdSegs ++ ps)) = true
    simpa [List.elem_iff] using mem_setAdd_self s.deletedOriginalPaths (absOf (wdSegs ++ ps))
  have hb1 : (mapLookup s1.movedPathToOriginalPathMap (absOf (wdSegs ++ ps))).getD
      (absOf (wdSegs ++ ps)) = absOf (wdSegs ++ ps) := by
    show (mapLookup s.movedPathToOriginalPathMap (absOf (wdSegs ++ ps))).getD
      (absOf (wdSegs ++ ps)) = absOf (wdSegs ++ ps)
    rw [hnobind]
    rfl
  have hex1 : existsSync d s1 (absOf (wdSegs ++ ps)) = .ok false := by
    rw [existsSync_eq d s1 _ _ hres1, hb1, if_pos hcontains]
  have hstep : mkdirLoop d ((absOf (wdSegs ++ ps)).length + 1) s1 (absOf (wdSegs ++ ps))
      = mkdirLoop d (absOf (wdSegs ++ ps)).length
          { s1 with stagedPathToContentMap := mapSet s1.stagedPathToContentMap (absOf (wdSegs ++ ps)) StagedEntry.dir }
          (pathDirname (absOf (wdSegs ++ ps))) := by
    unfold mkdirLoop
    rw [if_neg hPne, hex1]
    rfl
  obtain ⟨qs, a, hsplit⟩ : ∃ qs a, ps = qs ++ [a] :=
    ⟨ps.dropLast, ps.getLast hpsne, (List.dropLast_append_getLast hpsne).symm⟩
  have hqs : ValidSegs qs := by
    rw [hsplit] at hps
    exact fun x hx => hps x (by simp [hx])
  have ha : ValidSeg a := by
    rw [hsplit] at hps
    exact hps a (by simp)
  have hdir : pathDirname (absOf (wdSegs ++ ps)) = absOf (wdSegs ++ qs) := by
    rw [hsplit, ← List.append_assoc]
    exact pathDirname_absOf (wdSegs ++ qs) a (valid_append hwdv hqs) ha
  have hdirlen : (pathDirname (absOf (wdSegs ++ ps))).length < (absOf (wdSegs ++ ps)).length := by
    rw [hdir]
    rw [hsplit, ← List.append_assoc]
    exact absOf_length_append (wdSegs ++ qs) a ha
  have hdirhead : (pathDirname (absOf (wdSegs ++ ps))).data.head? = some '/' := by
    rw [hdir, absOf_data_cons]
    rfl
  set s1' := { s1 with stagedPathToContentMap := mapSet s1.stagedPathToContentMap (absOf (wdSegs ++ ps)) StagedEntry.dir } with hs1'
  have hfields := mkdirLoop_fields d (absOf (wdSegs ++ ps)).length s1'
    (pathDirname (absOf (wdSegs ++ ps)))
  have hframe := mkdirLoop_frame d (absOf (wdSegs ++ ps)).length s1'
    (pathDirname (absOf (wdSegs ++ ps))) hdirhead (absOf (wdSegs ++ ps)) hdirlen
  have hchain : (mkdirSync d (rmSync s (absOf (wdSegs ++ ps))).2 (absOf (wdSegs ++ ps))).2
      = (mkdirLoop d (absOf (wdSegs ++ ps)).length s1'
          (pathDirname (absOf (wdSegs ++ ps)))).2 := by
    rw [hrm2, hmkdef, hstep]
  refine ⟨by rw [hrm], ?_, ?_, ?_⟩
  · rw [hchain, hframe]
    show mapLookup (mapSet s1.stagedPathToContentMap (absOf (wdSegs ++ ps)) StagedEntry.dir)
      (absOf (wdSegs ++ ps)) = some .dir
    exact mapLookup_set_self _ _ _
  · rw [hchain, hfields.2.1]
    show absOf (wdSegs ++ ps) ∈ setAdd s.deletedOriginalPaths (absOf (wdSegs ++ ps))
    exact mem_setAdd_self _ _
  · have hwd2 : (mkdirLoop d (absOf (wdSegs ++ ps)).length s1'
        (pathDirname (absOf (wdSegs ++ ps)))).2.workingDir = absOf wdSegs := by
      rw [hfields.2.2]
      exact hwd
    have hres2 : resolvePath (mkdirLoop d (absOf (wdSegs ++ ps)).length s1'
        (pathDirname (absOf (wdSegs ++ ps)))).2 (absOf (wdSegs ++ ps))
        = .ok (absOf (wdSegs ++ ps)) :=
      resolvePath_inroot _ wdSegs ps hwd2 hv
    rw [hchain, existsSync_eq d _ _ _ hres2]
    have hb2 : (mapLookup (mkdirLoop d (absOf (wdSegs ++ ps)).length s1'
        (pathDirname (absOf (wdSegs ++ ps)))).2.movedPathToOriginalPathMap
        (absOf (wdSegs ++ ps))).getD (absOf (wdSegs ++ ps)) = absOf (wdSegs ++ ps) := by
      rw [hfields.1.2]
      exact hb1
    have hcont2 : (mkdirLoop d (absOf (wdSegs ++ ps)).length s1'
        (pathDirname (absOf (wdSegs ++ ps)))).2.deletedOriginalPaths.contains
        (absOf (wdSegs ++ ps)) = true := by
      rw [hfields.2.1]
      exact hcontains
    rw [hb2, if_pos hcont2]

/-- Witness for C10 at a real file `/r/a.txt` with no rename binding. -/
theorem C10_rm_then_mkdir_keeps_exists_false_witness :
    ((initStagedFs "/r").workingDir = absOf ["r"] ∧ ValidSegs ["r"] ∧ ValidSegs ["a.txt"]
      ∧ (["a.txt"] : List String) ≠ []
      ∧ mapLookup (initStagedFs "/r").movedPathToOriginalPathMap (absOf (["r"] ++ ["a.txt"]))
          = none
      ∧ diskHas [("/r", .dir), ("/r/a.txt", .file "t")] (absOf (["r"] ++ ["a.txt"])) = true)
    ∧ ((rmSync (initStagedFs "/r") (absOf (["r"] ++ ["a.txt"]))).1 = .ok ()
      ∧ mapLookup (mkdirSync [("/r", .dir), ("/r/a.txt", .file "t")]
          (rmSync (initStagedFs "/r") (absOf (["r"] ++ ["a.txt"]))).2
          (absOf (["r"] ++ ["a.txt"]))).2.stagedPathToContentMap (absOf (["r"] ++ ["a.txt"]))
        = some .dir
      ∧ absOf (["r"] ++ ["a.txt"]) ∈ (mkdirSync [("/r", .dir), ("/r/a.txt", .file "t")]
          (rmSync (initStagedFs "/r") (absOf (["r"] ++ ["a.txt"]))).2
          (absOf (["r"] ++ ["a.txt"]))).2.deletedOriginalPaths
      ∧ existsSync [("/r", .dir), ("/r/a.txt", .file "t")]
          (mkdirSync [("/r", .dir), ("/r/a.txt", .file "t")]
            (rmSync (initStagedFs "/r") (absOf (["r"] ++ ["a.txt"]))).2
            (absOf (["r"] ++ ["a.txt"]))).2 (absOf (["r"] ++ ["a.txt"])) = .ok false) :=
  ⟨⟨by decide, by decide, by decide, by decide, by decide, by decide⟩,
   C10_rm_then_mkdir_keeps_exists_false [("/r", .dir), ("/r/a.txt", .file "t")]
     (initStagedFs "/r") ["r"] ["a.txt"]
     (by decide) (by decide) (by decide) (by decide) (by decide) (by decide)⟩

end Codeformer
